import Mathlib

set_option maxRecDepth 100000
set_option linter.unusedVariables false

/-!
Shallow embedding of the cryptoPAn-rs repository (src/scramble.rs and
src/lib.rs), a Crypto-PAn style prefix-preserving IP address anonymizer.

Conventions of the embedding:
* Rust `[u8; N]` byte arrays are embedded as `List Nat`; the predicate
  `bytesOk` records that every entry fits in a byte.  `u128` values are
  embedded as `Nat` with an explicit `% 2 ^ 128` wherever the Rust
  arithmetic could wrap.
* The generic `Encrypter` trait of src/scramble.rs and the openssl
  AES-128-ECB `Crypter` of src/lib.rs are deterministic single-block
  functions (one 16-byte block in, one 16-byte block out, `update` +
  `finalize` with padding disabled); both are embedded as plain functions
  `List Nat → List Nat` supplied as parameters.
* The `panic!` in `Scrambler::scramble` is embedded as `Option.none`.
-/

/-- A list embeds a Rust byte array when every entry fits in a byte. -/
def bytesOk (l : List Nat) : Prop := ∀ b ∈ l, b < 256

instance bytesOk.dec : DecidablePred bytesOk := fun l =>
  List.decidableBAll (fun b => b < 256) l

/-- Embedding of `zip_with` from src/scramble.rs.  `std::array::from_fn`
supplies each index `i` ranging over `0..N`; the `get_unchecked` accesses are
embedded as `List.getD` (the in-bounds safety condition is claim C10). -/
def zip_with (f : Nat → Nat → Nat) (a b : List Nat) (N : Nat) : List Nat :=
  (List.range N).map (fun i => f (a.getD i 0) (b.getD i 0))

/-- Embedding of `Scrambler<E>` from src/scramble.rs; the generic encrypter
is a function field. -/
structure Scrambler where
  encrypter : List Nat → List Nat
  padding : List Nat

/-- `Scrambler::with_encrypter`: stores the encryption of the supplied
padding seed. -/
def Scrambler.with_encrypter (encrypter : List Nat → List Nat)
    (padding : List Nat) : Scrambler :=
  { encrypter := encrypter, padding := encrypter padding }

/-- `Scrambler::new`: splits the 32-byte key into the cipher key
(`key[..16]`) and the padding seed (`key[16..]`); `Encrypter::from_key` is
the parameter `from_key`. -/
def Scrambler.new (from_key : List Nat → List Nat → List Nat)
    (key : List Nat) : Scrambler :=
  Scrambler.with_encrypter (from_key (key.take 16)) (key.drop 16)

/-- One iteration of the `for i in 0..n_bits` loop of `Scrambler::scramble`:
state is the pair `(mask, result)`.  `!m` on `u8` is `255 ^^^ m`, `<< 1`
on `u8` wraps modulo 256, `encrypted[0] >> 7` extracts the top bit. -/
def scrambleStep (S : Scrambler) (bytes : List Nat)
    (st : List Nat × List Nat) (i : Nat) : List Nat × List Nat :=
  let padded :=
    zip_with (fun b p => b ||| p)
      (zip_with (fun m b => (255 ^^^ m) &&& b) st.1 bytes 16)
      (zip_with (fun m p => m &&& p) st.1 S.padding 16) 16
  let encrypted := S.encrypter padded
  (st.1.set (i / 8) ((st.1.getD (i / 8) 0) >>> 1),
   st.2.set (i / 8)
     ((((st.2.getD (i / 8) 0) <<< 1) % 256) ||| ((encrypted.getD 0 0) >>> 7)))

/-- `Scrambler::scramble` (src/scramble.rs): the `panic!` branch for
`n_bits > 128` is `none`; otherwise the loop runs from the all-ones mask and
all-zero result and the function returns `bytes ^ result`. -/
def Scrambler.scramble (S : Scrambler) (bytes : List Nat) (n_bits : Nat) :
    Option (List Nat) :=
  if n_bits > 128 then none else
    some (zip_with (fun b r => b ^^^ r) bytes
      ((List.range n_bits).foldl (scrambleStep S bytes)
        (List.replicate 16 255, List.replicate 16 0)).2 16)

/-- `Scrambler::scramble_ipv4`: the 4 octets are copied into the front of a
zero-initialized 16-byte buffer, `scramble(_, 32)` is applied, and the first
4 bytes of the result are returned. -/
def Scrambler.scramble_ipv4 (S : Scrambler) (addr : List Nat) :
    Option (List Nat) :=
  (S.scramble (addr ++ List.replicate 12 0) 32).map (fun l => l.take 4)

/-- `Scrambler::scramble_ipv6`: the 16 octets are the buffer,
`scramble(_, 128)` is applied. -/
def Scrambler.scramble_ipv6 (S : Scrambler) (addr : List Nat) :
    Option (List Nat) :=
  S.scramble addr 128

/-- `CipherError` from src/lib.rs. -/
inductive CipherError where
  | InvalidKeyLength : Nat → CipherError
  | CipherCreationFailed : CipherError
  | EncryptionUpdateFailed : CipherError
  | EncryptionFinalizeFailed : CipherError
deriving DecidableEq, Repr

/-- `CryptoPAn` from src/lib.rs: the openssl `Crypter` is embedded as the
single-block function obtained from the first 16 key bytes. -/
structure CryptoPAn where
  cipher : List Nat → List Nat
  padding_int : Nat

/-- `CryptoPAn::to_int`: big-endian fold `(acc << 8) | byte` on `u128`. -/
def to_int (byte_array : List Nat) : Nat :=
  byte_array.foldl (fun acc byte => (((acc <<< 8) % 2 ^ 128) ||| byte)) 0

/-- `CryptoPAn::to_array`: repeatedly inserts `(v >> (i*8)) & 0xff` at the
front, producing the big-endian `int_value_len`-byte array. -/
def to_array (int_value : Nat) (int_value_len : Nat) : List Nat :=
  (List.range int_value_len).foldl
    (fun arr i => (((int_value >>> (i * 8)) &&& 255) :: arr)) []

/-- `CryptoPAn::new` (src/lib.rs): rejects any key whose length is not 32
with `InvalidKeyLength(len)`; otherwise builds the AES cipher from
`key[..16]` and stores `to_int` of the encryption of `key[16..]`.  The
openssl construction/encryption error branches do not arise for the
deterministic total cipher function `aes`. -/
def CryptoPAn.new (aes : List Nat → List Nat → List Nat) (key : List Nat) :
    Except CipherError CryptoPAn :=
  if key.length ≠ 32 then
    Except.error (CipherError.InvalidKeyLength key.length)
  else
    Except.ok
      { cipher := aes (key.take 16),
        padding_int := to_int (aes (key.take 16) (key.drop 16)) }

/-- `CryptoPAn::anonymize_bin` (src/lib.rs): `u128` arithmetic with the
per-position mask `!0u128 >> pos`; `!mask` on `u128` is
`(2^128 - 1) ^^^ mask`; `flip_array` collects `encrypted[0] >> 7` and is
folded into the flip integer by `(acc << 1) | x`. -/
def CryptoPAn.anonymize_bin (c : CryptoPAn) (addr : Nat) (version : Nat) :
    Nat :=
  let pos_max := if version = 4 then 32 else 128
  let ext_addr := if version = 4 then (addr <<< 96) % 2 ^ 128 else addr
  let flip_array := (List.range pos_max).map (fun pos =>
    let mask := (2 ^ 128 - 1) >>> pos
    let padded_addr :=
      (c.padding_int &&& mask) ||| (ext_addr &&& ((2 ^ 128 - 1) ^^^ mask))
    ((c.cipher (to_array padded_addr 16)).getD 0 0) >>> 7)
  addr ^^^ (flip_array.foldl (fun acc x => (((acc <<< 1) % 2 ^ 128) ||| x)) 0)

/-- `CryptoPAn::format_ip`: the value of the returned address — an IPv4
result keeps `addr & 0xFFFFFFFF`, an IPv6 result is the `u128` value. -/
def CryptoPAn.format_ip (addr : Nat) (version : Nat) : Nat :=
  if version = 4 then addr &&& (2 ^ 32 - 1) else addr % 2 ^ 128

/-! ### Specification-side helper definitions -/

/-- Bit `p` of a 16-byte buffer, counted most-significant-bit first
(position 0 is bit 7 of byte 0). -/
def bufBit (l : List Nat) (p : Nat) : Bool :=
  (l.getD (p / 8) 0).testBit (7 - p % 8)

/-- Byte `j` of the scramble mask before iteration `i`: the mask starts
all-ones and byte `i / 8` is shifted right once at the end of iteration
`i`. -/
def maskByte (i j : Nat) : Nat := 255 >>> (i - 8 * j)

/-- The 16-byte scramble mask before iteration `i`. -/
def maskList (i : Nat) : List Nat := (List.range 16).map (maskByte i)

/-- The padded block encrypted at iteration `i` of `Scrambler::scramble`:
first `i` bits from `bytes`, the rest from the stored padding. -/
def paddedAt (S : Scrambler) (bytes : List Nat) (i : Nat) : List Nat :=
  zip_with (fun b p => b ||| p)
    (zip_with (fun m b => (255 ^^^ m) &&& b) (maskList i) bytes 16)
    (zip_with (fun m p => m &&& p) (maskList i) S.padding 16) 16

/-- The flip bit produced at iteration `i` of `Scrambler::scramble`. -/
def flipBit (S : Scrambler) (bytes : List Nat) (i : Nat) : Nat :=
  ((S.encrypter (paddedAt S bytes i)).getD 0 0) >>> 7

/-- How many loop iterations of `scramble _ n` touch result byte `j`. -/
def bitsIn (n j : Nat) : Nat := min n (8 * j + 8) - 8 * j

/-- Closed form of result byte `j` after `n` iterations: the flip bits of
positions `8*j ..` are shifted in from the low end. -/
def resByte (S : Scrambler) (bytes : List Nat) (n j : Nat) : Nat :=
  (List.range (bitsIn n j)).foldl
    (fun acc t => (((acc <<< 1) % 256) ||| flipBit S bytes (8 * j + t))) 0

/-- Closed form of the 16-byte result vector after `n` iterations. -/
def resList (S : Scrambler) (bytes : List Nat) (n : Nat) : List Nat :=
  (List.range 16).map (resByte S bytes n)

/-! ### Digit-list machinery

`valS s L` is the value of the big-endian list `L` of `s`-bit digits; both
`to_int` (s = 8) and the flip-bit accumulators (s = 1) are instances of the
same shift-or fold, characterized by `shiftFold_eq_valS`. -/

/-- Value of a big-endian list of `s`-bit digits. -/
def valS (s : Nat) (L : List Nat) : Nat :=
  L.foldl (fun v x => v * 2 ^ s + x) 0

theorem testBit_mul_pow_add (a : Nat) {b i : Nat} (hb : b < 2 ^ i) (j : Nat) :
    (a * 2 ^ i + b).testBit j =
      if j < i then b.testBit j else a.testBit (j - i) := by
  rcases Nat.lt_or_ge j i with hj | hj
  · simp only [hj, if_true]
    have h1 : a * 2 ^ i + b = b + a * 2 ^ (i - j) * 2 ^ j := by
      rw [Nat.mul_assoc, ← Nat.pow_add]
      have h2 : i - j + j = i := by omega
      rw [h2]; omega
    rw [h1, Nat.testBit_to_div_mod, Nat.testBit_to_div_mod,
      Nat.add_mul_div_right _ _ (Nat.two_pow_pos j)]
    have h2 : i - j = (i - j - 1) + 1 := by omega
    rw [h2, Nat.pow_succ]
    have h3 : b / 2 ^ j + a * (2 ^ (i - j - 1) * 2) =
        b / 2 ^ j + (a * 2 ^ (i - j - 1)) * 2 := by ring
    rw [h3, Nat.add_mul_mod_self_right]
  · simp only [Nat.not_lt.mpr hj, if_false]
    have h1 : a * 2 ^ i + b = b + a * 2 ^ i := by omega
    have h2 : (2 : Nat) ^ j = 2 ^ i * 2 ^ (j - i) := by
      rw [← Nat.pow_add]
      congr 1
      omega
    rw [h1, Nat.testBit_to_div_mod, Nat.testBit_to_div_mod, h2,
      ← Nat.div_div_eq_div_mul,
      Nat.add_mul_div_right _ _ (Nat.two_pow_pos i),
      Nat.div_eq_of_lt hb, Nat.zero_add]

theorem valS_go (s : Nat) (L : List Nat) : ∀ (a : Nat),
    L.foldl (fun v x => v * 2 ^ s + x) a = a * 2 ^ (s * L.length) + valS s L := by
  induction L with
  | nil => intro a; simp [valS]
  | cons y L ih =>
      intro a
      simp only [List.foldl_cons, List.length_cons, valS, Nat.zero_mul,
        Nat.zero_add] at *
      rw [ih (a * 2 ^ s + y), ih y]
      have h1 : s * (L.length + 1) = s * L.length + s := by ring
      rw [h1, Nat.pow_add]
      ring

theorem valS_cons (s x : Nat) (L : List Nat) :
    valS s (x :: L) = x * 2 ^ (s * L.length) + valS s L := by
  simp only [valS, List.foldl_cons, Nat.zero_mul, Nat.zero_add]
  exact valS_go s L x

theorem valS_lt (s : Nat) (L : List Nat) (h : ∀ x ∈ L, x < 2 ^ s) :
    valS s L < 2 ^ (s * L.length) := by
  induction L with
  | nil => simp [valS]
  | cons x L ih =>
      have hx : x < 2 ^ s := h x (List.mem_cons_self x L)
      have hL := ih (fun y hy => h y (List.mem_cons_of_mem x hy))
      rw [valS_cons]
      have h1 : s * (x :: L).length = s * L.length + s := by
        simp [List.length_cons]; ring
      rw [h1, Nat.pow_add]
      calc x * 2 ^ (s * L.length) + valS s L
          < x * 2 ^ (s * L.length) + 2 ^ (s * L.length) := by omega
        _ = (x + 1) * 2 ^ (s * L.length) := by ring
        _ ≤ 2 ^ s * 2 ^ (s * L.length) :=
            Nat.mul_le_mul_right _ (by omega)
        _ = 2 ^ (s * L.length) * 2 ^ s := by ring

theorem testBit_valS {s : Nat} (hs : 0 < s) (L : List Nat)
    (h : ∀ x ∈ L, x < 2 ^ s) (t : Nat) :
    (valS s L).testBit t =
      if t < s * L.length then
        (L.getD (L.length - 1 - t / s) 0).testBit (t % s)
      else false := by
  induction L with
  | nil => simp [valS]
  | cons x L ih =>
      have hx : x < 2 ^ s := h x (List.mem_cons_self x L)
      have hL : ∀ y ∈ L, y < 2 ^ s :=
        fun y hy => h y (List.mem_cons_of_mem x hy)
      rw [valS_cons, testBit_mul_pow_add x (valS_lt s L hL) t]
      simp only [List.length_cons, Nat.mul_succ]
      rcases Nat.lt_or_ge t (s * L.length) with ht | ht
      · rw [if_pos ht, ih hL, if_pos ht, if_pos (by omega)]
        have hdiv : t / s < L.length := Nat.div_lt_of_lt_mul ht
        have hidx : L.length + 1 - 1 - t / s = (L.length - 1 - t / s) + 1 := by
          omega
        rw [hidx, List.getD_cons_succ]
      · rcases Nat.lt_or_ge t (s * L.length + s) with ht2 | ht2
        · rw [if_neg (by omega), if_pos (by omega)]
          have hcomm : L.length * s = s * L.length := Nat.mul_comm _ _
          have hcomm2 : (L.length + 1) * s = s * L.length + s := by ring
          have hdiv : t / s = L.length := by
            apply Nat.div_eq_of_lt_le <;> omega
          have hidx : L.length + 1 - 1 - t / s = 0 := by omega
          rw [hidx, List.getD_cons_zero]
          have h4 : t = (t - s * L.length) + L.length * s := by
            rw [Nat.mul_comm]; omega
          have hmod : t % s = t - s * L.length := by
            conv_lhs => rw [h4]
            rw [Nat.add_mul_mod_self_right, Nat.mod_eq_of_lt (by omega)]
          rw [hmod]
        · rw [if_neg (by omega), if_neg (by omega)]
          apply Nat.testBit_lt_two_pow
          calc x < 2 ^ s := hx
            _ ≤ 2 ^ (t - s * L.length) :=
                Nat.pow_le_pow_right (by omega) (by omega)

theorem shiftLeft_or_eq_add (a : Nat) {x s : Nat} (hx : x < 2 ^ s) :
    (a <<< s) ||| x = a * 2 ^ s + x := by
  apply Nat.eq_of_testBit_eq
  intro t
  rw [Nat.testBit_or, Nat.testBit_shiftLeft, testBit_mul_pow_add a hx t]
  rcases Nat.lt_or_ge t s with ht | ht
  · simp [Nat.not_le.mpr ht, ht]
  · have hxf : x.testBit t = false :=
      Nat.testBit_lt_two_pow (Nat.lt_of_lt_of_le hx
        (Nat.pow_le_pow_right (by omega) ht))
    simp [ht, hxf]

/-- The wrapping shift-or fold used by `to_int` (s = 8, W = 128), by the
scramble result bytes (s = 1, W = 8) and by the `anonymize_bin` flip fold
(s = 1, W = 128) computes the digit-list value whenever the digits fit. -/
theorem shiftFold_eq_valS {s W : Nat} (L : List Nat)
    (h : ∀ x ∈ L, x < 2 ^ s) (hW : s * L.length ≤ W) :
    L.foldl (fun acc x => (((acc <<< s) % 2 ^ W) ||| x)) 0 = valS s L := by
  have go : ∀ (L : List Nat) (acc : Nat), (∀ x ∈ L, x < 2 ^ s) →
      (acc + 1) * 2 ^ (s * L.length) ≤ 2 ^ W →
      L.foldl (fun acc x => (((acc <<< s) % 2 ^ W) ||| x)) acc =
        acc * 2 ^ (s * L.length) + valS s L := by
    intro L
    induction L with
    | nil => intro acc _ _; simp [valS]
    | cons x L ih =>
        intro acc hmem hacc
        have hx : x < 2 ^ s := hmem x (List.mem_cons_self x L)
        have hL : ∀ y ∈ L, y < 2 ^ s :=
          fun y hy => hmem y (List.mem_cons_of_mem x hy)
        have hsplit : s * (x :: L).length = s * L.length + s := by
          simp only [List.length_cons]; ring
        rw [hsplit, Nat.pow_add] at hacc
        have hpos : 0 < 2 ^ (s * L.length) := Nat.two_pow_pos _
        have hshift : acc <<< s = acc * 2 ^ s := Nat.shiftLeft_eq acc s
        have hlt : acc * 2 ^ s < 2 ^ W := by
          have h1 : acc * 2 ^ s < (acc + 1) * 2 ^ s :=
            (Nat.mul_lt_mul_right (Nat.two_pow_pos s)).mpr (by omega)
          have h2 : (acc + 1) * 2 ^ s ≤ (acc + 1) * (2 ^ (s * L.length) * 2 ^ s) := by
            apply Nat.mul_le_mul_left
            exact Nat.le_mul_of_pos_left _ hpos
          omega
        have hstep : ((acc <<< s) % 2 ^ W) ||| x = acc * 2 ^ s + x := by
          calc ((acc <<< s) % 2 ^ W) ||| x = (acc <<< s) ||| x := by
                rw [hshift, Nat.mod_eq_of_lt hlt]
            _ = acc * 2 ^ s + x := shiftLeft_or_eq_add acc hx
        have hacc2 : (acc * 2 ^ s + x + 1) * 2 ^ (s * L.length) ≤ 2 ^ W := by
          have h3 : acc * 2 ^ s + x + 1 ≤ (acc + 1) * 2 ^ s := by nlinarith
          calc (acc * 2 ^ s + x + 1) * 2 ^ (s * L.length)
              ≤ ((acc + 1) * 2 ^ s) * 2 ^ (s * L.length) :=
                Nat.mul_le_mul_right _ h3
            _ = (acc + 1) * (2 ^ (s * L.length) * 2 ^ s) := by ring
            _ ≤ 2 ^ W := hacc
        rw [List.foldl_cons, hstep, ih (acc * 2 ^ s + x) hL hacc2,
          hsplit, Nat.pow_add, valS_cons]
        ring
  have h0 : (0 + 1) * 2 ^ (s * L.length) ≤ 2 ^ W := by
    simpa using Nat.pow_le_pow_right (by omega) hW
  simpa using go L 0 h h0

/-! ### List access helpers -/

theorem getD_lt {l : List Nat} {i : Nat} (h : i < l.length) :
    l.getD i 0 = l[i] := by
  simp [List.getD_eq_getElem?_getD, List.getElem?_eq_getElem h]

theorem getD_mem {l : List Nat} {i : Nat} (h : i < l.length) :
    l.getD i 0 ∈ l := by
  rw [getD_lt h]
  exact List.getElem_mem h

theorem zip_with_length (f : Nat → Nat → Nat) (a b : List Nat) (N : Nat) :
    (zip_with f a b N).length = N := by
  simp [zip_with]

theorem getD_zip_with {i N : Nat} (h : i < N) (f : Nat → Nat → Nat)
    (a b : List Nat) :
    (zip_with f a b N).getD i 0 = f (a.getD i 0) (b.getD i 0) := by
  rw [getD_lt (by simpa [zip_with_length] using h)]
  simp [zip_with]

theorem map_getD_range (l : List Nat) :
    (List.range l.length).map (fun i => l.getD i 0) = l := by
  apply List.ext_getElem
  · simp
  · intro i h1 h2
    simp only [List.getElem_map, List.getElem_range]
    rw [getD_lt h2]

theorem bytesOk_lt_two_pow {l : List Nat} (h : bytesOk l) :
    ∀ x ∈ l, x < 2 ^ 8 := by
  intro x hx
  have := h x hx
  omega

/-! ### `to_int` and `to_array` bridges -/

theorem to_int_eq_valS (l : List Nat) (hlen : l.length ≤ 16)
    (h : bytesOk l) : to_int l = valS 8 l :=
  shiftFold_eq_valS l (bytesOk_lt_two_pow h) (by omega)

theorem to_int_lt (l : List Nat) (hlen : l.length ≤ 16) (h : bytesOk l) :
    to_int l < 2 ^ 128 := by
  rw [to_int_eq_valS l hlen h]
  calc valS 8 l < 2 ^ (8 * l.length) := valS_lt 8 l (bytesOk_lt_two_pow h)
    _ ≤ 2 ^ 128 := Nat.pow_le_pow_right (by omega) (by omega)

theorem testBit_to_int (l : List Nat) (hlen : l.length = 16)
    (h : bytesOk l) (t : Nat) :
    (to_int l).testBit t =
      if t < 128 then (l.getD (15 - t / 8) 0).testBit (t % 8) else false := by
  rw [to_int_eq_valS l (by omega) h,
    testBit_valS (by omega) l (bytesOk_lt_two_pow h) t, hlen]

theorem bufBit_to_int (l : List Nat) (hlen : l.length = 16)
    (h : bytesOk l) {p : Nat} (hp : p < 128) :
    (to_int l).testBit (127 - p) = bufBit l p := by
  rw [testBit_to_int l hlen h, if_pos (by omega)]
  have e1 : 15 - (127 - p) / 8 = p / 8 := by omega
  have e2 : (127 - p) % 8 = 7 - p % 8 := by omega
  rw [e1, e2, bufBit]

theorem to_array_succ (v n : Nat) :
    to_array v (n + 1) = (((v >>> (n * 8)) &&& 255) :: to_array v n) := by
  simp [to_array, List.range_succ]

theorem to_array_length (v n : Nat) : (to_array v n).length = n := by
  induction n with
  | zero => rfl
  | succ n ih => rw [to_array_succ]; simp [ih]

theorem bytesOk_to_array (v n : Nat) : bytesOk (to_array v n) := by
  induction n with
  | zero => intro b hb; simp [to_array] at hb
  | succ n ih =>
      rw [to_array_succ]
      intro b hb
      rcases List.mem_cons.mp hb with hb | hb
      · subst hb
        have : (v >>> (n * 8)) &&& 255 < 2 ^ 8 :=
          Nat.and_lt_two_pow _ (by omega)
        omega
      · exact ih b hb

theorem getD_to_array (v : Nat) :
    ∀ (n k : Nat), k < n →
      (to_array v n).getD k 0 = (v >>> ((n - 1 - k) * 8)) &&& 255 := by
  intro n
  induction n with
  | zero => intro k hk; omega
  | succ n ih =>
      intro k hk
      rw [to_array_succ]
      cases k with
      | zero => simp
      | succ k =>
          rw [List.getD_cons_succ, ih k (by omega)]
          have : n - 1 - k = n + 1 - 1 - (k + 1) := by omega
          rw [this]

theorem testBit_byte_and (x r : Nat) :
    (x &&& 255).testBit r = if r < 8 then x.testBit r else false := by
  have h255 : (255 : Nat) = 2 ^ 8 - 1 := by norm_num
  rw [Nat.testBit_and, h255, Nat.testBit_two_pow_sub_one]
  rcases Nat.lt_or_ge r 8 with hr | hr
  · simp [hr]
  · simp [Nat.not_lt.mpr hr]

theorem to_int_to_array (v : Nat) : to_int (to_array v 16) = v % 2 ^ 128 := by
  apply Nat.eq_of_testBit_eq
  intro t
  rw [testBit_to_int (to_array v 16) (to_array_length v 16)
    (bytesOk_to_array v 16) t, Nat.testBit_mod_two_pow]
  rcases Nat.lt_or_ge t 128 with ht | ht
  · rw [if_pos ht, getD_to_array v 16 (15 - t / 8) (by omega),
      testBit_byte_and, if_pos (by omega), Nat.testBit_shiftRight]
    have e1 : (16 - 1 - (15 - t / 8)) * 8 + t % 8 = t := by omega
    rw [e1]
    simp [ht]
  · rw [if_neg (by omega)]
    simp [Nat.not_lt.mpr ht]

theorem to_array_to_int (l : List Nat) (hlen : l.length = 16)
    (h : bytesOk l) : to_array (to_int l) 16 = l := by
  apply List.ext_getElem
  · rw [to_array_length, hlen]
  · intro k h1 h2
    have hk : k < 16 := by rw [to_array_length] at h1; exact h1
    have g1 : (to_array (to_int l) 16)[k] = (to_array (to_int l) 16).getD k 0 :=
      (getD_lt h1).symm
    have g2 : l[k] = l.getD k 0 := (getD_lt h2).symm
    rw [g1, g2, getD_to_array _ 16 k hk]
    apply Nat.eq_of_testBit_eq
    intro r
    rw [testBit_byte_and, Nat.testBit_shiftRight]
    rcases Nat.lt_or_ge r 8 with hr | hr
    · rw [if_pos hr, testBit_to_int l hlen h, if_pos (by omega)]
      have e1 : 15 - ((16 - 1 - k) * 8 + r) / 8 = k := by omega
      have e2 : ((16 - 1 - k) * 8 + r) % 8 = r := by omega
      rw [e1, e2]
    · rw [if_neg (Nat.not_lt.mpr hr)]
      have hb : l.getD k 0 < 256 := h _ (getD_mem (by omega))
      symm
      apply Nat.testBit_lt_two_pow
      calc l.getD k 0 < 256 := hb
        _ ≤ 2 ^ r := by
            have : (256 : Nat) = 2 ^ 8 := by norm_num
            rw [this]
            exact Nat.pow_le_pow_right (by omega) hr

/-! ### The scramble loop: closed form -/

theorem maskByte_zero {i j : Nat} (h : 8 * j + 8 ≤ i) : maskByte i j = 0 := by
  rw [maskByte, Nat.shiftRight_eq_div_pow]
  apply Nat.div_eq_of_lt
  calc 255 < 2 ^ 8 := by norm_num
    _ ≤ 2 ^ (i - 8 * j) := Nat.pow_le_pow_right (by omega) (by omega)

theorem getD_maskList {j : Nat} (i : Nat) (h : j < 16) :
    (maskList i).getD j 0 = maskByte i j := by
  rw [getD_lt (by simp [maskList]; omega)]
  simp [maskList]

theorem getD_resList (S : Scrambler) (bytes : List Nat) {j : Nat} (n : Nat)
    (h : j < 16) :
    (resList S bytes n).getD j 0 = resByte S bytes n j := by
  rw [getD_lt (by simp [resList]; omega)]
  simp [resList]

theorem maskList_set (n : Nat) :
    (maskList n).set (n / 8) (((maskList n).getD (n / 8) 0) >>> 1) =
      maskList (n + 1) := by
  rcases Nat.lt_or_ge n 128 with hn | hn
  · apply List.ext_getElem
    · simp [maskList]
    · intro j h1 h2
      have hj : j < 16 := by simpa [maskList] using h2
      rw [List.getElem_set]
      split
      · rename_i heq
        subst heq
        rw [getD_maskList n (by omega)]
        have hmr : (maskList (n + 1))[n / 8] = maskByte (n + 1) (n / 8) := by
          simp [maskList]
        rw [hmr, maskByte, maskByte, ← Nat.shiftRight_add]
        congr 1
        omega
      · rename_i hne
        have h3 : (maskList n)[j] = maskByte n j := by simp [maskList]
        have h4 : (maskList (n + 1))[j] = maskByte (n + 1) j := by
          simp [maskList]
        rw [h3, h4]
        rcases (by omega : 8 * j + 8 ≤ n ∨ n + 1 ≤ 8 * j) with hc | hc
        · rw [maskByte_zero (by omega), maskByte_zero (by omega)]
        · rw [maskByte, maskByte]
          congr 1
          omega
  · rw [List.set_eq_of_length_le (by simp [maskList]; omega)]
    apply List.ext_getElem
    · simp [maskList]
    · intro j h1 h2
      have hj : j < 16 := by simpa [maskList] using h1
      have h3 : (maskList n)[j] = maskByte n j := by simp [maskList]
      have h4 : (maskList (n + 1))[j] = maskByte (n + 1) j := by
        simp [maskList]
      rw [h3, h4, maskByte_zero (by omega), maskByte_zero (by omega)]

theorem resList_set (S : Scrambler) (bytes : List Nat) (n : Nat) :
    (resList S bytes n).set (n / 8)
        (((((resList S bytes n).getD (n / 8) 0) <<< 1) % 256) |||
          flipBit S bytes n) =
      resList S bytes (n + 1) := by
  rcases Nat.lt_or_ge n 128 with hn | hn
  · apply List.ext_getElem
    · simp [resList]
    · intro j h1 h2
      have hj : j < 16 := by simpa [resList] using h2
      rw [List.getElem_set]
      split
      · rename_i heq
        subst heq
        rw [getD_resList S bytes n (by omega)]
        have hmr : (resList S bytes (n + 1))[n / 8] =
            resByte S bytes (n + 1) (n / 8) := by simp [resList]
        rw [hmr, resByte, resByte]
        have hb1 : bitsIn n (n / 8) = n - 8 * (n / 8) := by
          rw [bitsIn]; omega
        have hb2 : bitsIn (n + 1) (n / 8) = (n - 8 * (n / 8)) + 1 := by
          rw [bitsIn]; omega
        rw [hb1, hb2, List.range_succ, List.foldl_append]
        simp only [List.foldl_cons, List.foldl_nil]
        have e : 8 * (n / 8) + (n - 8 * (n / 8)) = n := by omega
        rw [e]
      · rename_i hne
        have h3 : (resList S bytes n)[j] = resByte S bytes n j := by
          simp [resList]
        have h4 : (resList S bytes (n + 1))[j] = resByte S bytes (n + 1) j := by
          simp [resList]
        rw [h3, h4, resByte, resByte]
        have hb : bitsIn n j = bitsIn (n + 1) j := by
          rw [bitsIn, bitsIn]; omega
        rw [hb]
  · rw [List.set_eq_of_length_le (by simp [resList]; omega)]
    apply List.ext_getElem
    · simp [resList]
    · intro j h1 h2
      have hj : j < 16 := by simpa [resList] using h1
      have h3 : (resList S bytes n)[j] = resByte S bytes n j := by
        simp [resList]
      have h4 : (resList S bytes (n + 1))[j] = resByte S bytes (n + 1) j := by
        simp [resList]
      rw [h3, h4, resByte, resByte]
      have hb : bitsIn n j = bitsIn (n + 1) j := by
        rw [bitsIn, bitsIn]; omega
      rw [hb]

/-- Closed form of the scramble loop state after `n` iterations. -/
theorem scramble_fold (S : Scrambler) (bytes : List Nat) (n : Nat) :
    (List.range n).foldl (scrambleStep S bytes)
      (List.replicate 16 255, List.replicate 16 0) =
      (maskList n, resList S bytes n) := by
  induction n with
  | zero =>
      simp only [List.range_zero, List.foldl_nil]
      have h1 : maskList 0 = List.replicate 16 255 := by decide
      have h2 : resList S bytes 0 = List.replicate 16 0 := by
        apply List.ext_getElem
        · simp [resList]
        · intro j ha hb
          simp only [resList, List.getElem_map, List.getElem_range,
            List.getElem_replicate]
          simp [resByte, bitsIn]
      rw [h1, h2]
  | succ n ih =>
      rw [List.range_succ, List.foldl_append, ih]
      simp only [List.foldl_cons, List.foldl_nil, scrambleStep]
      rw [maskList_set n]
      have hres := resList_set S bytes n
      rw [flipBit, paddedAt] at hres
      rw [hres]

/-- `Scrambler::scramble` in closed form: the buffer XORed with the closed
form of the result vector. -/
theorem scramble_eq (S : Scrambler) (bytes : List Nat) {n : Nat}
    (hn : n ≤ 128) :
    S.scramble bytes n =
      some (zip_with (fun b r => b ^^^ r) bytes (resList S bytes n) 16) := by
  rw [Scrambler.scramble, if_neg (by omega), scramble_fold]

/-- A concrete encrypter (constant block with the top bit set) and a concrete
scrambler, used to instantiate the universally quantified claims. -/
def constEnc : List Nat → List Nat := fun _ => 128 :: List.replicate 15 0

def testScrambler : Scrambler :=
  Scrambler.with_encrypter constEnc (List.replicate 16 0)

/-- C7: `scramble(buffer, 0)` returns the buffer unchanged. -/
theorem claim_C7 (S : Scrambler) (bytes : List Nat)
    (h : bytes.length = 16) : S.scramble bytes 0 = some bytes := by
  rw [scramble_eq S bytes (by omega)]
  congr 1
  apply List.ext_getElem
  · rw [zip_with_length, h]
  · intro i h1 h2
    have hi : i < 16 := by rwa [zip_with_length] at h1
    rw [← getD_lt, getD_zip_with hi, getD_resList S bytes 0 hi]
    have hz : resByte S bytes 0 i = 0 := by
      simp [resByte, bitsIn]
    rw [hz, Nat.xor_zero, getD_lt h2]

theorem claim_C7_inst :
    testScrambler.scramble (List.replicate 16 7) 0 =
      some (List.replicate 16 7) :=
  claim_C7 testScrambler (List.replicate 16 7) (by decide)

/-- C6: `scramble` rejects `n_bits > 128` (the `panic!`, embedded as `none`)
and succeeds with a 16-byte result for every `n_bits ≤ 128`, including 128
itself. -/
theorem claim_C6 (S : Scrambler) (bytes : List Nat) (n_bits : Nat)
    (h : bytes.length = 16) :
    (128 < n_bits → S.scramble bytes n_bits = none) ∧
    (n_bits ≤ 128 →
      ∃ out, S.scramble bytes n_bits = some out ∧ out.length = 16) := by
  constructor
  · intro hlt
    rw [Scrambler.scramble, if_pos (by omega)]
  · intro hle
    exact ⟨_, scramble_eq S bytes hle, zip_with_length _ _ _ 16⟩

theorem claim_C6_inst :
    (testScrambler.scramble (List.replicate 16 0) 129 = none) ∧
    (∃ out, testScrambler.scramble (List.replicate 16 0) 128 = some out ∧
      out.length = 16) :=
  ⟨(claim_C6 testScrambler (List.replicate 16 0) 129 (by decide)).1
      (by omega),
   (claim_C6 testScrambler (List.replicate 16 0) 128 (by decide)).2
      (by omega)⟩

/-- C10: the indices `std::array::from_fn` feeds to the unchecked accesses
in `zip_with` are always in bounds, and `zip_with` is total with
`f a[i] b[i]` at every index. -/
theorem claim_C10 (f : Nat → Nat → Nat) (a b : List Nat) (N : Nat)
    (ha : a.length = N) (hb : b.length = N) :
    (∀ i ∈ List.range N, i < a.length ∧ i < b.length) ∧
    (zip_with f a b N).length = N ∧
    (∀ i, i < N → (zip_with f a b N).getD i 0 = f (a.getD i 0) (b.getD i 0)) := by
  refine ⟨?_, zip_with_length f a b N, ?_⟩
  · intro i hi
    have := List.mem_range.mp hi
    omega
  · intro i hi
    exact getD_zip_with hi f a b

theorem claim_C10_inst :
    (∀ i ∈ List.range 2, i < [1, 2].length ∧ i < [3, 4].length) ∧
    (zip_with (fun x y => x + y) [1, 2] [3, 4] 2).length = 2 ∧
    (∀ i, i < 2 → (zip_with (fun x y => x + y) [1, 2] [3, 4] 2).getD i 0 =
      ([1, 2].getD i 0) + ([3, 4].getD i 0)) :=
  claim_C10 (fun x y => x + y) [1, 2] [3, 4] 2 (by decide) (by decide)

/-- C5: `CryptoPAn::new` fails with `InvalidKeyLength(actual)` exactly when
the key length is not 32, and on success stores the AES cipher keyed with
`key[..16]` and the padding `to_int(encrypt(key[16..]))`; `Scrambler::new`
stores `from_key(key[..16])(key[16..])` as its padding block. -/
theorem claim_C5 (aes from_key : List Nat → List Nat → List Nat)
    (key : List Nat) :
    (∀ e, CryptoPAn.new aes key = Except.error e ↔
      (key.length ≠ 32 ∧ e = CipherError.InvalidKeyLength key.length)) ∧
    (∀ c, CryptoPAn.new aes key = Except.ok c →
      key.length = 32 ∧ c.cipher = aes (key.take 16) ∧
      c.padding_int = to_int (aes (key.take 16) (key.drop 16))) ∧
    ((Scrambler.new from_key key).padding =
      from_key (key.take 16) (key.drop 16)) := by
  refine ⟨?_, ?_, rfl⟩
  · intro e
    rw [CryptoPAn.new]
    split
    · rename_i hlen
      constructor
      · intro he
        exact ⟨hlen, (Except.error.injEq _ _).mp he.symm⟩
      · intro ⟨h1, h2⟩
        rw [h2]
    · rename_i hlen
      constructor
      · intro he
        exact absurd he (by simp)
      · intro ⟨h1, h2⟩
        exact absurd h1 (by omega)
  · intro c hc
    rw [CryptoPAn.new] at hc
    split at hc
    · exact absurd hc (by simp)
    · rename_i hlen
      refine ⟨by omega, ?_, ?_⟩
      · rw [← (Except.ok.injEq _ _).mp hc]
      · rw [← (Except.ok.injEq _ _).mp hc]

theorem claim_C5_inst :
    (CryptoPAn.new (fun _ b => b) (List.replicate 31 0) =
      Except.error (CipherError.InvalidKeyLength 31)) ∧
    ((Scrambler.new (fun _ b => b) (List.replicate 32 5)).padding =
      List.replicate 16 5) := by
  constructor
  · have h := (claim_C5 (fun _ b => b) (fun _ b => b)
      (List.replicate 31 0)).1 (CipherError.InvalidKeyLength 31)
    exact h.mpr (by decide)
  · have h := (claim_C5 (fun _ b => b) (fun _ b => b)
      (List.replicate 32 5)).2.2
    rw [h]
    decide

/-! ### Claim C3: the padded block and the flip bit -/

/-- The claim's `high_i_mask`: top `i` bits set, per byte. -/
def highMask (i : Nat) : List Nat :=
  (List.range 16).map (fun j => 255 ^^^ maskByte i j)

/-- The padded integer built at position `pos` of `anonymize_bin`. -/
def intPadded (c : CryptoPAn) (ext pos : Nat) : Nat :=
  (c.padding_int &&& ((2 ^ 128 - 1) >>> pos)) |||
    (ext &&& ((2 ^ 128 - 1) ^^^ ((2 ^ 128 - 1) >>> pos)))

/-- The flip bit produced at position `pos` of `anonymize_bin`. -/
def intFlip (c : CryptoPAn) (ext pos : Nat) : Nat :=
  ((c.cipher (to_array (intPadded c ext pos) 16)).getD 0 0) >>> 7

/-- `anonymize_bin`, with its loop body named. -/
theorem anonymize_bin_eq (c : CryptoPAn) (addr version : Nat) :
    c.anonymize_bin addr version =
      addr ^^^ (((List.range (if version = 4 then 32 else 128)).map
        (intFlip c (if version = 4 then (addr <<< 96) % 2 ^ 128 else addr))).foldl
        (fun acc x => (((acc <<< 1) % 2 ^ 128) ||| x)) 0) := rfl

theorem testBit_maskByte (i j r : Nat) :
    (maskByte i j).testBit r = decide (i - 8 * j + r < 8) := by
  have h : (255 : Nat) = 2 ^ 8 - 1 := by norm_num
  rw [maskByte, Nat.testBit_shiftRight, h, Nat.testBit_two_pow_sub_one]

theorem xor_xor_self (a b : Nat) : a ^^^ (a ^^^ b) = b := by
  rw [← Nat.xor_assoc, Nat.xor_self, Nat.zero_xor]

theorem testBit_intPadded (c : CryptoPAn) (ext i t : Nat) :
    (intPadded c ext i).testBit t =
      if t + i < 128 then c.padding_int.testBit t
      else if t < 128 then ext.testBit t
      else false := by
  have h1 : (((2 : Nat) ^ 128 - 1) >>> i).testBit t = decide (i + t < 128) := by
    rw [Nat.testBit_shiftRight, Nat.testBit_two_pow_sub_one]
  rw [intPadded, Nat.testBit_or, Nat.testBit_and, Nat.testBit_and,
    Nat.testBit_xor, h1, Nat.testBit_two_pow_sub_one]
  by_cases h2 : i + t < 128
  · have h3 : t < 128 := by omega
    rw [if_pos (by omega)]
    simp [h2, h3]
  · by_cases h3 : t < 128
    · rw [if_neg (by omega), if_pos h3]
      simp [h2, h3]
    · rw [if_neg (by omega), if_neg h3]
      simp [h2, h3]

/-- C3: at every position `i < n_bits`, the block handed to the cipher is
`(buffer & high_i_mask) | (padding & ~high_i_mask)` — equivalently its
first `i` bits come from the buffer and the rest from the padding block —
and the flip bit is the most significant bit of the ciphertext's first
byte.  The last two conjuncts state the same for the `u128` loop body of
`anonymize_bin`. -/
theorem shiftRight7_eq_toNat {x : Nat} (hx : x < 256) :
    x >>> 7 = (x.testBit 7).toNat := by
  rw [Nat.shiftRight_eq_div_pow, Nat.toNat_testBit]
  have h27 : (2 : Nat) ^ 7 = 128 := by norm_num
  rw [h27]
  omega

theorem claim_C3 (S : Scrambler) (bytes : List Nat) (n i : Nat)
    (hi : i < n) (hn : n ≤ 128) (hE : ∀ x, bytesOk (S.encrypter x))
    (c : CryptoPAn) (ext addr version : Nat) :
    (S.scramble bytes n =
      some (zip_with (fun b r => b ^^^ r) bytes (resList S bytes n) 16)) ∧
    (paddedAt S bytes i =
      zip_with (fun b p => b ||| p)
        (zip_with (fun b h => b &&& h) bytes (highMask i) 16)
        (zip_with (fun p h => p &&& (255 ^^^ h)) S.padding (highMask i) 16)
        16) ∧
    (∀ p, p < 128 →
      bufBit (paddedAt S bytes i) p =
        if p < i then bufBit bytes p else bufBit S.padding p) ∧
    (flipBit S bytes i =
      (((S.encrypter (paddedAt S bytes i)).getD 0 0).testBit 7).toNat) ∧
    (c.anonymize_bin addr version =
      addr ^^^ (((List.range (if version = 4 then 32 else 128)).map
        (intFlip c (if version = 4 then (addr <<< 96) % 2 ^ 128 else addr))).foldl
        (fun acc x => (((acc <<< 1) % 2 ^ 128) ||| x)) 0)) ∧
    (∀ t, (intPadded c ext i).testBit t =
      if t + i < 128 then c.padding_int.testBit t
      else if t < 128 then ext.testBit t
      else false) := by
  refine ⟨scramble_eq S bytes hn, ?_, ?_, ?_, anonymize_bin_eq c addr version,
    testBit_intPadded c ext i⟩
  · apply List.ext_getElem
    · simp [paddedAt, zip_with]
    · intro j h1 h2
      have hj : j < 16 := by rwa [zip_with_length] at h2
      rw [← getD_lt, ← getD_lt]
      rw [paddedAt, getD_zip_with hj, getD_zip_with hj, getD_zip_with hj,
        getD_zip_with hj, getD_zip_with hj, getD_zip_with hj]
      have hh : (highMask i).getD j 0 = 255 ^^^ maskByte i j := by
        rw [getD_lt (by simp [highMask]; omega)]
        simp [highMask]
      rw [getD_maskList i hj, hh, xor_xor_self]
      rw [Nat.and_comm]
      congr 1
      rw [Nat.and_comm]
  · intro p hp
    have hj : p / 8 < 16 := by omega
    have hr : 7 - p % 8 < 8 := by omega
    rw [bufBit, paddedAt, getD_zip_with hj, getD_zip_with hj,
      getD_zip_with hj, getD_maskList i hj, Nat.testBit_or,
      Nat.testBit_and, Nat.testBit_and, Nat.testBit_xor, testBit_maskByte]
    have h255 : (255 : Nat).testBit (7 - p % 8) = true := by
      have h : (255 : Nat) = 2 ^ 8 - 1 := by norm_num
      rw [h, Nat.testBit_two_pow_sub_one]
      simp [hr]
    rw [h255]
    rcases Nat.lt_or_ge p i with hpi | hpi
    · have hc : ¬(i - 8 * (p / 8) + (7 - p % 8) < 8) := by omega
      simp [hc, bufBit, hpi]
    · have hc : i - 8 * (p / 8) + (7 - p % 8) < 8 := by omega
      simp [hc, bufBit, Nat.not_lt.mpr hpi]
  · have hlt : (S.encrypter (paddedAt S bytes i)).getD 0 0 < 256 := by
      rcases Nat.lt_or_ge 0 (S.encrypter (paddedAt S bytes i)).length
        with h0 | h0
      · exact hE _ _ (getD_mem h0)
      · rw [List.getD_eq_getElem?_getD, List.getElem?_eq_none (by omega)]
        simp
    rw [flipBit, shiftRight7_eq_toNat hlt]

/-! ### Claim C4: the IPv4 embedding -/

theorem getD_append_lt {l1 l2 : List Nat} {n : Nat} (h : n < l1.length) :
    (l1 ++ l2).getD n 0 = l1.getD n 0 := by
  rw [List.getD_eq_getElem?_getD, List.getD_eq_getElem?_getD,
    List.getElem?_append_left h]

theorem getD_append_ge {l1 l2 : List Nat} {n : Nat} (h : l1.length ≤ n) :
    (l1 ++ l2).getD n 0 = l2.getD (n - l1.length) 0 := by
  rw [List.getD_eq_getElem?_getD, List.getD_eq_getElem?_getD,
    List.getElem?_append_right h]

/-- C4: `scramble_ipv4` scrambles the 4 octets embedded at the top of a
zero buffer with `n_bits = 32` and keeps the first 4 bytes; the buffer has
the address in its most significant 32 bits, zeros in the low 96 bits, and
its integer value is the address value shifted left by 96 — the same
convention `anonymize_bin` realizes with `addr << 96`. -/
theorem claim_C4 (S : Scrambler) (addr : List Nat) (h4 : addr.length = 4)
    (hb : bytesOk addr) (c : CryptoPAn) (a : Nat) :
    (S.scramble_ipv4 addr =
      (S.scramble (addr ++ List.replicate 12 0) 32).map (fun l => l.take 4)) ∧
    (∀ p, p < 32 → bufBit (addr ++ List.replicate 12 0) p = bufBit addr p) ∧
    (∀ p, 32 ≤ p → p < 128 →
      bufBit (addr ++ List.replicate 12 0) p = false) ∧
    (to_int (addr ++ List.replicate 12 0) = ((to_int addr) <<< 96) % 2 ^ 128) ∧
    (c.anonymize_bin a 4 =
      a ^^^ (((List.range 32).map (intFlip c ((a <<< 96) % 2 ^ 128))).foldl
        (fun acc x => (((acc <<< 1) % 2 ^ 128) ||| x)) 0)) := by
  refine ⟨rfl, ?_, ?_, ?_, anonymize_bin_eq c a 4⟩
  · intro p hp
    rw [bufBit, bufBit, getD_append_lt (by omega)]
  · intro p hp1 hp2
    rw [bufBit, getD_append_ge (by omega), h4]
    have hz : (List.replicate 12 0).getD (p / 8 - 4) 0 = 0 := by
      rcases Nat.lt_or_ge (p / 8 - 4) 12 with hc | hc
      · rw [getD_lt (by simp; omega), List.getElem_replicate]
      · rw [List.getD_eq_getElem?_getD, List.getElem?_eq_none (by simp; omega)]
        rfl
    rw [hz]
    simp
  · have hok : bytesOk (addr ++ List.replicate 12 0) := by
      intro x hx
      rcases List.mem_append.mp hx with hx | hx
      · exact hb x hx
      · have := List.eq_of_mem_replicate hx
        omega
    have hlen : (addr ++ List.replicate 12 0).length = 16 := by simp [h4]
    rw [to_int_eq_valS _ (by omega) hok, to_int_eq_valS addr (by omega) hb,
      valS, List.foldl_append]
    have hgo := valS_go 8 (List.replicate 12 0)
      (List.foldl (fun v x => v * 2 ^ 8 + x) 0 addr)
    rw [hgo]
    have hz : valS 8 (List.replicate 12 0) = 0 := by decide
    rw [hz, Nat.add_zero]
    have hlt : valS 8 addr < 2 ^ 32 := by
      have := valS_lt 8 addr (bytesOk_lt_two_pow hb)
      rw [h4] at this
      exact this
    rw [Nat.shiftLeft_eq, Nat.mod_eq_of_lt (by
      have h96 : (2 : Nat) ^ 32 * 2 ^ 96 = 2 ^ 128 := by norm_num
      calc valS 8 addr * 2 ^ 96 < 2 ^ 32 * 2 ^ 96 :=
            (Nat.mul_lt_mul_right (Nat.two_pow_pos 96)).mpr hlt
        _ = 2 ^ 128 := h96)]
    rw [valS]
    simp [List.length_replicate]

theorem claim_C4_inst :
    testScrambler.scramble_ipv4 [1, 2, 3, 4] =
      (testScrambler.scramble ([1, 2, 3, 4] ++ List.replicate 12 0) 32).map
        (fun l => l.take 4) :=
  (claim_C4 testScrambler [1, 2, 3, 4] (by decide) (by decide)
    { cipher := constEnc, padding_int := 0 } 0).1

/-! ### Claim C2: placement of the flip bits -/

theorem encGetD_lt (S : Scrambler) (hE : ∀ x, bytesOk (S.encrypter x))
    (l : List Nat) : (S.encrypter l).getD 0 0 < 256 := by
  rcases Nat.lt_or_ge 0 (S.encrypter l).length with h0 | h0
  · exact hE _ _ (getD_mem h0)
  · rw [List.getD_eq_getElem?_getD, List.getElem?_eq_none (by omega)]
    simp

theorem flipBit_lt (S : Scrambler) (bytes : List Nat) (i : Nat)
    (hE : ∀ x, bytesOk (S.encrypter x)) : flipBit S bytes i < 2 := by
  rw [flipBit, Nat.shiftRight_eq_div_pow]
  have h1 := encGetD_lt S hE (paddedAt S bytes i)
  have h27 : (2 : Nat) ^ 7 = 128 := by norm_num
  rw [h27]
  omega

theorem bitsIn_le (n j : Nat) : bitsIn n j ≤ 8 := by
  rw [bitsIn]; omega

/-- The result byte is the 1-bit digit value of its flip-bit list. -/
theorem resByte_eq_valS (S : Scrambler) (bytes : List Nat) (n j : Nat)
    (hE : ∀ x, bytesOk (S.encrypter x)) :
    resByte S bytes n j =
      valS 1 ((List.range (bitsIn n j)).map
        (fun t => flipBit S bytes (8 * j + t))) := by
  rw [resByte, ← List.foldl_map
    (fun t => flipBit S bytes (8 * j + t))
    (fun acc x => (((acc <<< 1) % 256) ||| x))]
  have h := shiftFold_eq_valS (s := 1) (W := 8)
    ((List.range (bitsIn n j)).map (fun t => flipBit S bytes (8 * j + t)))
    (by
      intro x hx
      rcases List.mem_map.mp hx with ⟨t, ht, rfl⟩
      simpa using flipBit_lt S bytes (8 * j + t) hE)
    (by
      rw [List.length_map, List.length_range, Nat.one_mul]
      exact bitsIn_le n j)
  exact h

/-- Modelled from the spec for claim C2: the flip mask carrying `flip_bit_i`
at most-significant-first bit position `i` for every `i < n_bits` and zero
at every other position (byte `j` is the big-endian 1-bit digit value of
bits `8*j ..= 8*j+7`). -/
def specFlipMask (S : Scrambler) (bytes : List Nat) (n : Nat) : List Nat :=
  (List.range 16).map (fun j =>
    valS 1 ((List.range 8).map (fun t =>
      if 8 * j + t < n then flipBit S bytes (8 * j + t) else 0)))

/-- C2 fails as stated: with `n_bits = 1` the single flip bit is left in the
least significant position of the first result byte (bit position 7), not at
position 0, so the output differs from `buffer XOR flip_mask`. -/
theorem claim_C2_cex :
    testScrambler.scramble (List.replicate 16 0) 1 ≠
      some (zip_with (fun b r => b ^^^ r) (List.replicate 16 0)
        (specFlipMask testScrambler (List.replicate 16 0) 1) 16) := by
  decide

theorem specFlipMask_eq_resList (S : Scrambler) (bytes : List Nat) (n : Nat)
    (hE : ∀ x, bytesOk (S.encrypter x)) (hdvd : 8 ∣ n) :
    specFlipMask S bytes n = resList S bytes n := by
  apply List.ext_getElem
  · simp [specFlipMask, resList]
  · intro j h1 h2
    have hj : j < 16 := by simpa [specFlipMask] using h1
    have e1 : (specFlipMask S bytes n)[j] =
        valS 1 ((List.range 8).map (fun t =>
          if 8 * j + t < n then flipBit S bytes (8 * j + t) else 0)) := by
      simp [specFlipMask]
    have e2 : (resList S bytes n)[j] = resByte S bytes n j := by
      simp [resList]
    rw [e1, e2, resByte_eq_valS S bytes n j hE]
    obtain ⟨m, rfl⟩ := hdvd
    rcases Nat.lt_or_ge j m with hjm | hjm
    · have hb : bitsIn (8 * m) j = 8 := by rw [bitsIn]; omega
      rw [hb]
      congr 1
      apply List.map_congr_left
      intro t ht
      have := List.mem_range.mp ht
      rw [if_pos (by omega)]
    · have hb : bitsIn (8 * m) j = 0 := by rw [bitsIn]; omega
      rw [hb]
      have hz : (List.range 8).map (fun t =>
          if 8 * j + t < 8 * m then flipBit S bytes (8 * j + t) else 0) =
          (List.range 8).map (fun _ => 0) := by
        apply List.map_congr_left
        intro t ht
        rw [if_neg (by have := List.mem_range.mp ht; omega)]
      rw [hz]
      rfl

/-- C2 amended: restricted to byte-aligned `n_bits` (in particular the 32
and 128 used by the library), `scramble` returns `buffer XOR flip_mask`
with `flip_bit_i` at position `i` and all mask bits at positions `≥ n_bits`
zero, so the untouched bits pass through unchanged. -/
theorem claim_C2_amended (S : Scrambler) (bytes : List Nat) (n : Nat)
    (hlen : bytes.length = 16) (hE : ∀ x, bytesOk (S.encrypter x))
    (hn : n ≤ 128) (hdvd : 8 ∣ n) :
    (S.scramble bytes n =
      some (zip_with (fun b r => b ^^^ r) bytes (specFlipMask S bytes n) 16)) ∧
    (∀ p, n ≤ p → p < 128 → bufBit (specFlipMask S bytes n) p = false) ∧
    (∀ out, S.scramble bytes n = some out →
      ∀ p, n ≤ p → p < 128 → bufBit out p = bufBit bytes p) := by
  have hmask := specFlipMask_eq_resList S bytes n hE hdvd
  have hres0 : ∀ p, n ≤ p → p < 128 → resByte S bytes n (p / 8) = 0 := by
    intro p hp1 hp2
    obtain ⟨m, rfl⟩ := hdvd
    have hb : bitsIn (8 * m) (p / 8) = 0 := by rw [bitsIn]; omega
    rw [resByte, hb]
    rfl
  refine ⟨?_, ?_, ?_⟩
  · rw [hmask]
    exact scramble_eq S bytes hn
  · intro p hp1 hp2
    rw [hmask, bufBit, getD_resList S bytes n (by omega), hres0 p hp1 hp2]
    simp
  · intro out hout p hp1 hp2
    rw [scramble_eq S bytes hn] at hout
    have hout2 := Option.some.inj hout
    rw [← hout2, bufBit, getD_zip_with (by omega : p / 8 < 16),
      Nat.testBit_xor, getD_resList S bytes n (by omega), hres0 p hp1 hp2]
    simp [bufBit]

theorem testScrambler_ok : ∀ x, bytesOk (testScrambler.encrypter x) := by
  intro x
  show bytesOk (128 :: List.replicate 15 0)
  decide

theorem claim_C2_amended_inst :
    testScrambler.scramble (List.replicate 16 0) 8 =
      some (zip_with (fun b r => b ^^^ r) (List.replicate 16 0)
        (specFlipMask testScrambler (List.replicate 16 0) 8) 16) :=
  (claim_C2_amended testScrambler (List.replicate 16 0) 8 (by decide)
    testScrambler_ok (by omega) ⟨1, rfl⟩).1

/-! ### Claim C1: prefix preservation -/

theorem getD_map_range {m s : Nat} (h : s < m) (f : Nat → Nat) :
    ((List.range m).map f).getD s 0 = f s := by
  rw [getD_lt (by simp; omega)]
  simp

theorem testBit_255 (r : Nat) : (255 : Nat).testBit r = decide (r < 8) := by
  have h : (255 : Nat) = 2 ^ 8 - 1 := by norm_num
  rw [h, Nat.testBit_two_pow_sub_one]

/-- Two buffers agreeing on their leading `k` bits produce the same padded
block at every position `i ≤ k`. -/
theorem paddedAt_eq_of_pre (S : Scrambler) (a b : List Nat) (k i : Nat)
    (hik : i ≤ k) (hpre : ∀ p, p < k → bufBit a p = bufBit b p) :
    paddedAt S a i = paddedAt S b i := by
  apply List.ext_getElem
  · simp [paddedAt, zip_with]
  · intro j h1 h2
    have hj : j < 16 := by simpa [paddedAt, zip_with] using h1
    rw [← getD_lt, ← getD_lt]
    rw [paddedAt, paddedAt, getD_zip_with hj, getD_zip_with hj,
      getD_zip_with hj, getD_zip_with hj, getD_zip_with hj, getD_zip_with hj]
    congr 1
    rw [getD_maskList i hj]
    apply Nat.eq_of_testBit_eq
    intro r
    rw [Nat.testBit_and, Nat.testBit_and, Nat.testBit_xor, testBit_maskByte,
      testBit_255]
    rcases Nat.lt_or_ge r 8 with hr | hr
    · by_cases hm : i - 8 * j + r < 8
      · simp [hm, hr]
      · have hp : 8 * j + (7 - r) < k := by omega
        have hab := hpre (8 * j + (7 - r)) hp
        rw [bufBit, bufBit] at hab
        have e1 : (8 * j + (7 - r)) / 8 = j := by omega
        have e2 : 7 - (8 * j + (7 - r)) % 8 = r := by omega
        rw [e1, e2] at hab
        rw [hab]
    · have hm : ¬(i - 8 * j + r < 8) := by omega
      simp [hm, Nat.not_lt.mpr hr]

theorem flipBit_eq_of_pre (S : Scrambler) (a b : List Nat) (k i : Nat)
    (hik : i ≤ k) (hpre : ∀ p, p < k → bufBit a p = bufBit b p) :
    flipBit S a i = flipBit S b i := by
  rw [flipBit, flipBit, paddedAt_eq_of_pre S a b k i hik hpre]

/-- The result bytes agree on every bit whose source position is below `k`. -/
theorem resByte_testBit_eq_of_pre (S : Scrambler) (a b : List Nat)
    (hE : ∀ x, bytesOk (S.encrypter x)) (n k j t : Nat) (ht : t < 8)
    (hp : 8 * j + t < k) (hpre : ∀ p, p < k → bufBit a p = bufBit b p) :
    (resByte S a n j).testBit (7 - t) = (resByte S b n j).testBit (7 - t) := by
  rw [resByte_eq_valS S a n j hE, resByte_eq_valS S b n j hE]
  have hia : ∀ x ∈ (List.range (bitsIn n j)).map
      (fun s => flipBit S a (8 * j + s)), x < 2 ^ 1 := by
    intro x hx
    rcases List.mem_map.mp hx with ⟨s, hs, rfl⟩
    simpa using flipBit_lt S a (8 * j + s) hE
  have hib : ∀ x ∈ (List.range (bitsIn n j)).map
      (fun s => flipBit S b (8 * j + s)), x < 2 ^ 1 := by
    intro x hx
    rcases List.mem_map.mp hx with ⟨s, hs, rfl⟩
    simpa using flipBit_lt S b (8 * j + s) hE
  rw [testBit_valS (by omega) _ hia, testBit_valS (by omega) _ hib]
  simp only [List.length_map, List.length_range, Nat.one_mul, Nat.div_one]
  by_cases hc : 7 - t < bitsIn n j
  · rw [if_pos hc, if_pos hc]
    have hs : bitsIn n j - 1 - (7 - t) < bitsIn n j := by omega
    rw [getD_map_range hs, getD_map_range hs]
    have hik : 8 * j + (bitsIn n j - 1 - (7 - t)) ≤ k := by
      have := bitsIn_le n j
      omega
    rw [flipBit_eq_of_pre S a b k _ hik hpre]
  · rw [if_neg hc, if_neg hc]

/-- The padded `u128` block of `anonymize_bin` agrees for two embedded
addresses agreeing on their leading `k` bits, at every position `i ≤ k`. -/
theorem intPadded_eq_of_pre (c : CryptoPAn) (x y : Nat) (k i : Nat)
    (hik : i ≤ k)
    (hpre : ∀ p, p < k → x.testBit (127 - p) = y.testBit (127 - p)) :
    intPadded c x i = intPadded c y i := by
  apply Nat.eq_of_testBit_eq
  intro t
  rw [testBit_intPadded, testBit_intPadded]
  by_cases h1 : t + i < 128
  · rw [if_pos h1, if_pos h1]
  · by_cases h2 : t < 128
    · rw [if_neg h1, if_neg h1, if_pos h2, if_pos h2]
      have hp : 127 - t < k := by omega
      have h3 := hpre (127 - t) hp
      have e : 127 - (127 - t) = t := by omega
      rw [e] at h3
      rw [h3]
    · rw [if_neg h1, if_neg h1, if_neg h2, if_neg h2]

theorem intFlip_eq_of_pre (c : CryptoPAn) (x y : Nat) (k i : Nat)
    (hik : i ≤ k)
    (hpre : ∀ p, p < k → x.testBit (127 - p) = y.testBit (127 - p)) :
    intFlip c x i = intFlip c y i := by
  rw [intFlip, intFlip, intPadded_eq_of_pre c x y k i hik hpre]

theorem cipherGetD_lt (f : List Nat → List Nat) (hf : ∀ x, bytesOk (f x))
    (l : List Nat) : (f l).getD 0 0 < 256 := by
  rcases Nat.lt_or_ge 0 (f l).length with h0 | h0
  · exact hf _ _ (getD_mem h0)
  · rw [List.getD_eq_getElem?_getD, List.getElem?_eq_none (by omega)]
    simp

theorem intFlip_lt (c : CryptoPAn) (hC : ∀ x, bytesOk (c.cipher x))
    (ext i : Nat) : intFlip c ext i < 2 := by
  rw [intFlip, Nat.shiftRight_eq_div_pow]
  have h1 := cipherGetD_lt c.cipher hC (to_array (intPadded c ext i) 16)
  have h27 : (2 : Nat) ^ 7 = 128 := by norm_num
  rw [h27]
  omega

/-- `anonymize_bin` as XOR with the 1-bit digit value of its flip list. -/
theorem anonymize_eq_valS (c : CryptoPAn) (hC : ∀ x, bytesOk (c.cipher x))
    (a v : Nat) :
    c.anonymize_bin a v =
      a ^^^ valS 1 ((List.range (if v = 4 then 32 else 128)).map
        (intFlip c (if v = 4 then (a <<< 96) % 2 ^ 128 else a))) := by
  rw [anonymize_bin_eq]
  congr 1
  apply shiftFold_eq_valS
  · intro x hx
    rcases List.mem_map.mp hx with ⟨s, hs, rfl⟩
    simpa using intFlip_lt c hC _ s
  · rw [List.length_map, List.length_range, Nat.one_mul]
    split <;> omega

theorem anonymize6_eq_valS (c : CryptoPAn) (hC : ∀ x, bytesOk (c.cipher x))
    (a : Nat) :
    c.anonymize_bin a 6 = a ^^^ valS 1 ((List.range 128).map (intFlip c a)) := by
  simpa using anonymize_eq_valS c hC a 6

theorem anonymize4_eq_valS (c : CryptoPAn) (hC : ∀ x, bytesOk (c.cipher x))
    (a : Nat) :
    c.anonymize_bin a 4 =
      a ^^^ valS 1 ((List.range 32).map (intFlip c ((a <<< 96) % 2 ^ 128))) := by
  simpa using anonymize_eq_valS c hC a 4

/-- C1: prefix preservation.  Two 16-byte buffers agreeing on their leading
`k` bits (`k ≤ n_bits ≤ 128`) scramble to outputs agreeing on their leading
`k` bits; likewise `anonymize_bin` for embedded IPv6 (128-bit) and IPv4
(32-bit) addresses. -/
theorem claim_C1 (S : Scrambler) (hE : ∀ x, bytesOk (S.encrypter x))
    (c : CryptoPAn) (hC : ∀ x, bytesOk (c.cipher x)) :
    (∀ a b k n, a.length = 16 → b.length = 16 → k ≤ n → n ≤ 128 →
      (∀ p, p < k → bufBit a p = bufBit b p) →
      ∀ outA outB, S.scramble a n = some outA → S.scramble b n = some outB →
        ∀ p, p < k → bufBit outA p = bufBit outB p) ∧
    (∀ a b k, a < 2 ^ 128 → b < 2 ^ 128 → k ≤ 128 →
      (∀ p, p < k → a.testBit (127 - p) = b.testBit (127 - p)) →
      ∀ p, p < k → (c.anonymize_bin a 6).testBit (127 - p) =
        (c.anonymize_bin b 6).testBit (127 - p)) ∧
    (∀ a b k, a < 2 ^ 32 → b < 2 ^ 32 → k ≤ 32 →
      (∀ p, p < k → a.testBit (31 - p) = b.testBit (31 - p)) →
      ∀ p, p < k → (c.anonymize_bin a 4).testBit (31 - p) =
        (c.anonymize_bin b 4).testBit (31 - p)) := by
  refine ⟨?_, ?_, ?_⟩
  · intro a b k n ha hb hk hn hpre outA outB hA hB p hp
    rw [scramble_eq S a hn] at hA
    rw [scramble_eq S b hn] at hB
    rw [← Option.some.inj hA, ← Option.some.inj hB]
    have hj : p / 8 < 16 := by omega
    rw [bufBit, bufBit, getD_zip_with hj, getD_zip_with hj,
      Nat.testBit_xor, Nat.testBit_xor,
      getD_resList S a n (by omega), getD_resList S b n (by omega)]
    have h1 := hpre p hp
    rw [bufBit, bufBit] at h1
    have h2 := resByte_testBit_eq_of_pre S a b hE n k (p / 8) (p % 8)
      (by omega) (by omega) hpre
    rw [h1, h2]
  · intro a b k ha hb hk hpre p hp
    rw [anonymize6_eq_valS c hC a, anonymize6_eq_valS c hC b]
    rw [Nat.testBit_xor, Nat.testBit_xor]
    have hia : ∀ x ∈ (List.range 128).map (intFlip c a), x < 2 ^ 1 := by
      intro x hx
      rcases List.mem_map.mp hx with ⟨s, hs, rfl⟩
      simpa using intFlip_lt c hC a s
    have hib : ∀ x ∈ (List.range 128).map (intFlip c b), x < 2 ^ 1 := by
      intro x hx
      rcases List.mem_map.mp hx with ⟨s, hs, rfl⟩
      simpa using intFlip_lt c hC b s
    rw [testBit_valS Nat.one_pos _ hia, testBit_valS Nat.one_pos _ hib]
    simp only [List.length_map, List.length_range, Nat.one_mul, Nat.div_one]
    have hc : 127 - p < 128 := by omega
    rw [if_pos hc, if_pos hc, getD_map_range (by omega),
      getD_map_range (by omega)]
    have e : 128 - 1 - (127 - p) = p := by omega
    rw [e, intFlip_eq_of_pre c a b k p (by omega) hpre, hpre p hp]
  · intro a b k ha hb hk hpre p hp
    have hextbit : ∀ x : Nat, x < 2 ^ 32 → ∀ q, q < 32 →
        ((x <<< 96) % 2 ^ 128).testBit (127 - q) = x.testBit (31 - q) := by
      intro x hx q hq
      rw [Nat.testBit_mod_two_pow, Nat.testBit_shiftLeft]
      have hq1 : 127 - q < 128 := by omega
      have hq2 : 96 ≤ 127 - q := by omega
      simp [hq1, hq2]
      congr 1
      omega
    have hpre128 : ∀ q, q < k →
        ((a <<< 96) % 2 ^ 128).testBit (127 - q) =
          ((b <<< 96) % 2 ^ 128).testBit (127 - q) := by
      intro q hq
      rw [hextbit a ha q (by omega), hextbit b hb q (by omega), hpre q hq]
    rw [anonymize4_eq_valS c hC a, anonymize4_eq_valS c hC b]
    rw [Nat.testBit_xor, Nat.testBit_xor]
    have hia : ∀ x ∈ (List.range 32).map (intFlip c ((a <<< 96) % 2 ^ 128)),
        x < 2 ^ 1 := by
      intro x hx
      rcases List.mem_map.mp hx with ⟨s, hs, rfl⟩
      simpa using intFlip_lt c hC _ s
    have hib : ∀ x ∈ (List.range 32).map (intFlip c ((b <<< 96) % 2 ^ 128)),
        x < 2 ^ 1 := by
      intro x hx
      rcases List.mem_map.mp hx with ⟨s, hs, rfl⟩
      simpa using intFlip_lt c hC _ s
    rw [testBit_valS Nat.one_pos _ hia, testBit_valS Nat.one_pos _ hib]
    simp only [List.length_map, List.length_range, Nat.one_mul, Nat.div_one]
    have hc : 31 - p < 32 := by omega
    rw [if_pos hc, if_pos hc, getD_map_range (by omega),
      getD_map_range (by omega)]
    have e : 32 - 1 - (31 - p) = p := by omega
    rw [e, intFlip_eq_of_pre c _ _ k p (by omega) hpre128, hpre p hp]

def testPan : CryptoPAn := { cipher := constEnc, padding_int := 0 }

theorem testPan_ok : ∀ x, bytesOk (testPan.cipher x) := by
  intro x
  show bytesOk (128 :: List.replicate 15 0)
  decide

theorem claim_C1_inst :
    bufBit (255 :: List.replicate 15 0) 3 =
      bufBit (255 :: (List.replicate 14 0 ++ [1])) 3 :=
  (claim_C1 testScrambler testScrambler_ok testPan testPan_ok).1
    (List.replicate 16 0) (List.replicate 15 0 ++ [1]) 8 8
    (by decide) (by decide) (by omega) (by omega) (by decide)
    (255 :: List.replicate 15 0) (255 :: (List.replicate 14 0 ++ [1]))
    (by decide) (by decide) 3 (by omega)

theorem claim_C3_inst :
    flipBit testScrambler (List.replicate 16 0) 3 =
      (((testScrambler.encrypter
        (paddedAt testScrambler (List.replicate 16 0) 3)).getD 0 0).testBit
          7).toNat :=
  (claim_C3 testScrambler (List.replicate 16 0) 8 3 (by omega) (by omega)
    testScrambler_ok testPan 5 1 6).2.2.2.1

/-! ### Claim C9: the two implementations agree -/

theorem getD_bound {l : List Nat} (h : bytesOk l) (n : Nat) :
    l.getD n 0 < 256 := by
  rcases Nat.lt_or_ge n l.length with hl | hl
  · exact h _ (getD_mem hl)
  · rw [List.getD_eq_getElem?_getD, List.getElem?_eq_none hl]
    simp

theorem paddedAt_ok (S : Scrambler) (bytes : List Nat) (i : Nat)
    (hbok : bytesOk bytes) (hPok : bytesOk S.padding) :
    bytesOk (paddedAt S bytes i) := by
  intro x hx
  rw [paddedAt, zip_with] at hx
  rcases List.mem_map.mp hx with ⟨idx, hidx, rfl⟩
  have hidx16 : idx < 16 := List.mem_range.mp hidx
  rw [getD_zip_with hidx16, getD_zip_with hidx16]
  have h1 : ((255 ^^^ (maskList i).getD idx 0) &&& bytes.getD idx 0) < 2 ^ 8 :=
    Nat.and_lt_two_pow _ (by have := getD_bound hbok idx; omega)
  have h2 : (((maskList i).getD idx 0) &&& S.padding.getD idx 0) < 2 ^ 8 :=
    Nat.and_lt_two_pow _ (by have := getD_bound hPok idx; omega)
  have := Nat.or_lt_two_pow h1 h2
  omega

/-- The byte-level padded block and the `u128` padded block agree through
`to_int`. -/
theorem to_int_paddedAt (S : Scrambler) (c : CryptoPAn) (bytes : List Nat)
    (hP : S.padding.length = 16) (hPok : bytesOk S.padding)
    (hb : bytes.length = 16) (hbok : bytesOk bytes)
    (hpad : c.padding_int = to_int S.padding) (i : Nat) :
    to_int (paddedAt S bytes i) = intPadded c (to_int bytes) i := by
  have hlen : (paddedAt S bytes i).length = 16 := zip_with_length _ _ _ 16
  have hok : bytesOk (paddedAt S bytes i) := paddedAt_ok S bytes i hbok hPok
  apply Nat.eq_of_testBit_eq
  intro t
  rw [testBit_to_int _ hlen hok t, testBit_intPadded]
  rcases Nat.lt_or_ge t 128 with ht | ht
  · rw [if_pos ht]
    have hj : 15 - t / 8 < 16 := by omega
    rw [paddedAt, getD_zip_with hj, getD_zip_with hj, getD_zip_with hj,
      getD_maskList i hj, Nat.testBit_or, Nat.testBit_and, Nat.testBit_and,
      Nat.testBit_xor, testBit_maskByte, testBit_255, hpad,
      testBit_to_int S.padding hP hPok t, testBit_to_int bytes hb hbok t,
      if_pos ht, if_pos ht]
    by_cases hm : i - 8 * (15 - t / 8) + t % 8 < 8
    · rw [if_pos (by omega)]
      simp [hm, (by omega : t % 8 < 8)]
    · rw [if_neg (by omega)]
      simp [hm, (by omega : t % 8 < 8)]
      exact fun _ => ht
  · rw [if_neg (by omega), if_neg (by omega), if_neg (by omega)]

/-- With the same cipher function and corresponding paddings, the per-bit
flips of `Scrambler::scramble` and `CryptoPAn::anonymize_bin` coincide. -/
theorem flipBit_eq_intFlip (S : Scrambler) (c : CryptoPAn)
    (bytes : List Nat) (hcip : c.cipher = S.encrypter)
    (hpad : c.padding_int = to_int S.padding)
    (hP : S.padding.length = 16) (hPok : bytesOk S.padding)
    (hb : bytes.length = 16) (hbok : bytesOk bytes) (i : Nat) :
    flipBit S bytes i = intFlip c (to_int bytes) i := by
  rw [flipBit, intFlip, hcip]
  have hlen2 : (paddedAt S bytes i).length = 16 := zip_with_length _ _ _ 16
  have h1 : to_array (intPadded c (to_int bytes) i) 16 = paddedAt S bytes i := by
    rw [← to_int_paddedAt S c bytes hP hPok hb hbok hpad i,
      to_array_to_int _ hlen2 (paddedAt_ok S bytes i hbok hPok)]
  rw [h1]

theorem resByte_lt (S : Scrambler) (bytes : List Nat) (n j : Nat)
    (hE : ∀ x, bytesOk (S.encrypter x)) : resByte S bytes n j < 256 := by
  rw [resByte_eq_valS S bytes n j hE]
  have h := valS_lt 1 ((List.range (bitsIn n j)).map
    (fun t => flipBit S bytes (8 * j + t)))
    (by
      intro x hx
      rcases List.mem_map.mp hx with ⟨s, hs, rfl⟩
      simpa using flipBit_lt S bytes (8 * j + s) hE)
  rw [List.length_map, List.length_range, Nat.one_mul] at h
  have h2 : (2 : Nat) ^ bitsIn n j ≤ 2 ^ 8 :=
    Nat.pow_le_pow_right (by omega) (bitsIn_le n j)
  omega

theorem scrambleOut_ok (S : Scrambler) (bytes : List Nat) (n : Nat)
    (hbok : bytesOk bytes) (hE : ∀ x, bytesOk (S.encrypter x)) :
    bytesOk (zip_with (fun b r => b ^^^ r) bytes (resList S bytes n) 16) := by
  intro x hx
  rw [zip_with] at hx
  rcases List.mem_map.mp hx with ⟨idx, hidx, rfl⟩
  have hidx16 : idx < 16 := List.mem_range.mp hidx
  rw [getD_resList S bytes n hidx16]
  have h1 := getD_bound hbok idx
  have h2 := resByte_lt S bytes n idx hE
  have h3 := Nat.xor_lt_two_pow (x := bytes.getD idx 0)
    (y := resByte S bytes n idx) (n := 8) (by omega) (by omega)
  omega

/-- The IPv6 path: `to_int` of the 16-byte scramble output equals
`anonymize_bin _ 6` of `to_int` of the input. -/
theorem scramble_out6_to_int (S : Scrambler) (c : CryptoPAn)
    (hcip : c.cipher = S.encrypter) (hpad : c.padding_int = to_int S.padding)
    (hP : S.padding.length = 16) (hPok : bytesOk S.padding)
    (hE : ∀ x, bytesOk (S.encrypter x))
    (bytes : List Nat) (hb : bytes.length = 16) (hbok : bytesOk bytes) :
    to_int (zip_with (fun b r => b ^^^ r) bytes (resList S bytes 128) 16) =
      c.anonymize_bin (to_int bytes) 6 := by
  have hC : ∀ x, bytesOk (c.cipher x) := by rw [hcip]; exact hE
  rw [anonymize6_eq_valS c hC (to_int bytes)]
  have hfa : ∀ x ∈ (List.range 128).map (intFlip c (to_int bytes)),
      x < 2 ^ 1 := by
    intro x hx
    rcases List.mem_map.mp hx with ⟨s, hs, rfl⟩
    simpa using intFlip_lt c hC _ s
  apply Nat.eq_of_testBit_eq
  intro t
  rw [testBit_to_int _ (zip_with_length _ _ _ 16)
    (scrambleOut_ok S bytes 128 hbok hE) t, Nat.testBit_xor]
  rcases Nat.lt_or_ge t 128 with ht | ht
  · rw [if_pos ht]
    have hj : 15 - t / 8 < 16 := by omega
    rw [getD_zip_with hj, Nat.testBit_xor, getD_resList S bytes 128 hj,
      testBit_to_int bytes hb hbok t, if_pos ht]
    congr 1
    rw [resByte_eq_valS S bytes 128 _ hE]
    have hbits : bitsIn 128 (15 - t / 8) = 8 := by rw [bitsIn]; omega
    rw [hbits]
    have hfb : ∀ x ∈ (List.range 8).map
        (fun s => flipBit S bytes (8 * (15 - t / 8) + s)), x < 2 ^ 1 := by
      intro x hx
      rcases List.mem_map.mp hx with ⟨s, hs, rfl⟩
      simpa using flipBit_lt S bytes _ hE
    rw [testBit_valS Nat.one_pos _ hfb (t % 8),
      testBit_valS Nat.one_pos _ hfa t]
    simp only [List.length_map, List.length_range, Nat.one_mul, Nat.div_one]
    rw [if_pos (by omega : t % 8 < 8), if_pos (by omega : t < 128),
      getD_map_range (by omega), getD_map_range (by omega),
      flipBit_eq_intFlip S c bytes hcip hpad hP hPok hb hbok]
    have e : 8 * (15 - t / 8) + (8 - 1 - t % 8) = 128 - 1 - t := by omega
    rw [e]
    simp [Nat.mod_one]
  · rw [if_neg (by omega)]
    have h1 : (to_int bytes).testBit t = false := by
      apply Nat.testBit_lt_two_pow
      calc to_int bytes < 2 ^ 128 := to_int_lt bytes (by omega) hbok
        _ ≤ 2 ^ t := Nat.pow_le_pow_right (by omega) ht
    have h2 : (valS 1 ((List.range 128).map (intFlip c (to_int bytes)))).testBit
        t = false := by
      apply Nat.testBit_lt_two_pow
      have h := valS_lt 1 _ hfa
      rw [List.length_map, List.length_range, Nat.one_mul] at h
      calc valS 1 ((List.range 128).map (intFlip c (to_int bytes)))
          < 2 ^ 128 := h
        _ ≤ 2 ^ t := Nat.pow_le_pow_right (by omega) ht
    rw [h1, h2]
    rfl

theorem resList_ok (S : Scrambler) (bytes : List Nat) (n : Nat)
    (hE : ∀ x, bytesOk (S.encrypter x)) : bytesOk (resList S bytes n) := by
  intro x hx
  rw [resList] at hx
  rcases List.mem_map.mp hx with ⟨j, hj, rfl⟩
  exact resByte_lt S bytes n j hE

theorem take4_zip (f : Nat → Nat → Nat) (a b : List Nat) :
    (zip_with f a b 16).take 4 = zip_with f a b 4 := by
  rw [zip_with, zip_with, ← List.map_take, List.take_range]
  norm_num

theorem bytesOk_append {l1 l2 : List Nat} (h1 : bytesOk l1)
    (h2 : bytesOk l2) : bytesOk (l1 ++ l2) := by
  intro x hx
  rcases List.mem_append.mp hx with hx | hx
  · exact h1 x hx
  · exact h2 x hx

theorem bytesOk_replicate (n v : Nat) (h : v < 256) :
    bytesOk (List.replicate n v) := by
  intro x hx
  have := List.eq_of_mem_replicate hx
  omega

/-- `to_int` of the IPv4 embedding is the address value shifted left 96. -/
theorem embed4_to_int (addr : List Nat) (h4 : addr.length = 4)
    (hb : bytesOk addr) :
    to_int (addr ++ List.replicate 12 0) = ((to_int addr) <<< 96) % 2 ^ 128 := by
  have hok : bytesOk (addr ++ List.replicate 12 0) :=
    bytesOk_append hb (bytesOk_replicate 12 0 (by omega))
  have hlen : (addr ++ List.replicate 12 0).length = 16 := by simp [h4]
  rw [to_int_eq_valS _ (by omega) hok, to_int_eq_valS addr (by omega) hb,
    valS, List.foldl_append]
  rw [valS_go 8 (List.replicate 12 0)
    (List.foldl (fun v x => v * 2 ^ 8 + x) 0 addr)]
  have hz : valS 8 (List.replicate 12 0) = 0 := by decide
  rw [hz, Nat.add_zero]
  have hlt : valS 8 addr < 2 ^ 32 := by
    have h := valS_lt 8 addr (bytesOk_lt_two_pow hb)
    rw [h4] at h
    exact h
  rw [Nat.shiftLeft_eq, Nat.mod_eq_of_lt (by
    have h96 : (2 : Nat) ^ 32 * 2 ^ 96 = 2 ^ 128 := by norm_num
    calc valS 8 addr * 2 ^ 96 < 2 ^ 32 * 2 ^ 96 :=
          (Nat.mul_lt_mul_right (Nat.two_pow_pos 96)).mpr hlt
      _ = 2 ^ 128 := h96)]
  rw [valS]
  simp [List.length_replicate]

theorem to_int_addr4_lt (addr : List Nat) (h4 : addr.length = 4)
    (hb : bytesOk addr) : to_int addr < 2 ^ 32 := by
  rw [to_int_eq_valS addr (by omega) hb]
  have h := valS_lt 8 addr (bytesOk_lt_two_pow hb)
  rw [h4] at h
  exact h

/-- The IPv4 path: `to_int` of the truncated 4-byte scramble output equals
the formatted `anonymize_bin _ 4` of the address value. -/
theorem scramble_out4_to_int (S : Scrambler) (c : CryptoPAn)
    (hcip : c.cipher = S.encrypter) (hpad : c.padding_int = to_int S.padding)
    (hP : S.padding.length = 16) (hPok : bytesOk S.padding)
    (hE : ∀ x, bytesOk (S.encrypter x))
    (addr : List Nat) (h4 : addr.length = 4) (haok : bytesOk addr) :
    to_int ((zip_with (fun b r => b ^^^ r) (addr ++ List.replicate 12 0)
      (resList S (addr ++ List.replicate 12 0) 32) 16).take 4) =
      CryptoPAn.format_ip (c.anonymize_bin (to_int addr) 4) 4 := by
  have hC : ∀ x, bytesOk (c.cipher x) := by rw [hcip]; exact hE
  have hbufok : bytesOk (addr ++ List.replicate 12 0) :=
    bytesOk_append haok (bytesOk_replicate 12 0 (by omega))
  have hbuflen : (addr ++ List.replicate 12 0).length = 16 := by simp [h4]
  have hfa : ∀ x ∈ (List.range 32).map
      (intFlip c (((to_int addr) <<< 96) % 2 ^ 128)), x < 2 ^ 1 := by
    intro x hx
    rcases List.mem_map.mp hx with ⟨s, hs, rfl⟩
    simpa using intFlip_lt c hC _ s
  have hvlt : valS 1 ((List.range 32).map
      (intFlip c (((to_int addr) <<< 96) % 2 ^ 128))) < 2 ^ 32 := by
    have h := valS_lt 1 _ hfa
    rwa [List.length_map, List.length_range, Nat.one_mul] at h
  have halt : to_int addr < 2 ^ 32 := to_int_addr4_lt addr h4 haok
  have hxlt : to_int addr ^^^ valS 1 ((List.range 32).map
      (intFlip c (((to_int addr) <<< 96) % 2 ^ 128))) < 2 ^ 32 :=
    Nat.xor_lt_two_pow halt hvlt
  rw [take4_zip, CryptoPAn.format_ip, if_pos rfl,
    anonymize4_eq_valS c hC (to_int addr),
    Nat.and_pow_two_sub_one_eq_mod, Nat.mod_eq_of_lt hxlt]
  have hok4 : bytesOk (zip_with (fun b r => b ^^^ r)
      (addr ++ List.replicate 12 0)
      (resList S (addr ++ List.replicate 12 0) 32) 4) := by
    intro x hx
    rw [zip_with] at hx
    rcases List.mem_map.mp hx with ⟨idx, hidx, rfl⟩
    have h1 := getD_bound hbufok idx
    have h2 := getD_bound
      (resList_ok S (addr ++ List.replicate 12 0) 32 hE) idx
    have h3 := Nat.xor_lt_two_pow
      (x := (addr ++ List.replicate 12 0).getD idx 0)
      (y := (resList S (addr ++ List.replicate 12 0) 32).getD idx 0)
      (n := 8) (by omega) (by omega)
    omega
  apply Nat.eq_of_testBit_eq
  intro t
  rw [to_int_eq_valS _ (by rw [zip_with_length]; omega) hok4,
    testBit_valS (by omega) _ (bytesOk_lt_two_pow hok4) t, Nat.testBit_xor]
  simp only [zip_with_length]
  rcases Nat.lt_or_ge t 32 with ht | ht
  · rw [if_pos (by omega)]
    have hidx4 : 4 - 1 - t / 8 < 4 := by omega
    have hA4 : 4 - 1 - t / 8 < addr.length := by omega
    have hj16 : 4 - 1 - t / 8 < 16 := by omega
    rw [getD_zip_with hidx4, getD_append_lt hA4,
      Nat.testBit_xor, getD_resList S _ 32 hj16]
    congr 1
    · rw [to_int_eq_valS addr (by omega) haok,
        testBit_valS (by omega) addr (bytesOk_lt_two_pow haok) t, h4,
        if_pos (by omega)]
    · rw [resByte_eq_valS S _ 32 _ hE]
      have hbits : bitsIn 32 (4 - 1 - t / 8) = 8 := by rw [bitsIn]; omega
      rw [hbits]
      have hfb : ∀ x ∈ (List.range 8).map
          (fun s => flipBit S (addr ++ List.replicate 12 0)
            (8 * (4 - 1 - t / 8) + s)), x < 2 ^ 1 := by
        intro x hx
        rcases List.mem_map.mp hx with ⟨s, hs, rfl⟩
        simpa using flipBit_lt S _ _ hE
      rw [testBit_valS Nat.one_pos _ hfb (t % 8),
        testBit_valS Nat.one_pos _ hfa t]
      simp only [List.length_map, List.length_range, Nat.one_mul, Nat.div_one]
      rw [if_pos (by omega : t % 8 < 8), if_pos (by omega : t < 32),
        getD_map_range (by omega), getD_map_range (by omega),
        flipBit_eq_intFlip S c _ hcip hpad hP hPok hbuflen hbufok,
        embed4_to_int addr h4 haok]
      have e : 8 * (4 - 1 - t / 8) + (8 - 1 - t % 8) = 32 - 1 - t := by omega
      rw [e]
      simp [Nat.mod_one]
  · rw [if_neg (by omega), ← Nat.testBit_xor]
    symm
    apply Nat.testBit_lt_two_pow
    calc to_int addr ^^^ valS 1 ((List.range 32).map
          (intFlip c (((to_int addr) <<< 96) % 2 ^ 128))) < 2 ^ 32 := hxlt
      _ ≤ 2 ^ t := Nat.pow_le_pow_right (by omega) ht

/-- C9: under the same 32-byte key, whenever the Scrambler's generic
encrypter computes the same block function as CryptoPAn's AES-128-ECB
cipher, `scramble_ipv4` / `scramble_ipv6` return (as integers) exactly the
addresses `anonymize_bin` returns for versions 4 / 6. -/
theorem claim_C9 (aes : List Nat → List Nat → List Nat)
    (hA : ∀ k x, (aes k x).length = 16 ∧ bytesOk (aes k x))
    (key : List Nat) (hkey : key.length = 32)
    (c : CryptoPAn) (hc : CryptoPAn.new aes key = Except.ok c) :
    (∀ addr, addr.length = 4 → bytesOk addr →
      ((Scrambler.new aes key).scramble_ipv4 addr).map to_int =
        some (CryptoPAn.format_ip (c.anonymize_bin (to_int addr) 4) 4)) ∧
    (∀ addr, addr.length = 16 → bytesOk addr →
      ((Scrambler.new aes key).scramble_ipv6 addr).map to_int =
        some (CryptoPAn.format_ip (c.anonymize_bin (to_int addr) 6) 6)) := by
  rw [CryptoPAn.new, if_neg (by omega)] at hc
  have hcc : c.cipher = aes (key.take 16) := by
    rw [← Except.ok.inj hc]
  have hcp : c.padding_int = to_int (aes (key.take 16) (key.drop 16)) := by
    rw [← Except.ok.inj hc]
  have hcip : c.cipher = (Scrambler.new aes key).encrypter := hcc
  have hpad : c.padding_int = to_int (Scrambler.new aes key).padding := hcp
  have hE : ∀ x, bytesOk ((Scrambler.new aes key).encrypter x) :=
    fun x => (hA (key.take 16) x).2
  have hP : (Scrambler.new aes key).padding.length = 16 :=
    (hA (key.take 16) (key.drop 16)).1
  have hPok : bytesOk (Scrambler.new aes key).padding :=
    (hA (key.take 16) (key.drop 16)).2
  constructor
  · intro addr h4 haok
    show Option.map to_int (Option.map (fun l => l.take 4)
      ((Scrambler.new aes key).scramble (addr ++ List.replicate 12 0) 32)) = _
    rw [scramble_eq (Scrambler.new aes key) _ (by omega)]
    exact congrArg some (scramble_out4_to_int (Scrambler.new aes key) c
      hcip hpad hP hPok hE addr h4 haok)
  · intro addr h16 haok
    show Option.map to_int ((Scrambler.new aes key).scramble addr 128) = _
    rw [scramble_eq (Scrambler.new aes key) _ (by omega)]
    have h6 := scramble_out6_to_int (Scrambler.new aes key) c
      hcip hpad hP hPok hE addr h16 haok
    have hlt : c.anonymize_bin (to_int addr) 6 < 2 ^ 128 := by
      rw [← h6]
      exact to_int_lt _ (by rw [zip_with_length])
        (scrambleOut_ok (Scrambler.new aes key) addr 128 haok hE)
    have hfmt : CryptoPAn.format_ip (c.anonymize_bin (to_int addr) 6) 6 =
        c.anonymize_bin (to_int addr) 6 := by
      rw [CryptoPAn.format_ip, if_neg (by omega), Nat.mod_eq_of_lt hlt]
    rw [hfmt]
    exact congrArg some h6

def c9aes : List Nat → List Nat → List Nat := fun _ _ => List.replicate 16 0

def c9pan : CryptoPAn :=
  { cipher := c9aes (List.take 16 (List.replicate 32 0)),
    padding_int := to_int (c9aes (List.take 16 (List.replicate 32 0))
      (List.drop 16 (List.replicate 32 0))) }

theorem c9aes_ok : ∀ k x, (c9aes k x).length = 16 ∧ bytesOk (c9aes k x) := by
  intro k x
  constructor
  · rfl
  · show bytesOk (List.replicate 16 0)
    decide

theorem claim_C9_inst :
    ((Scrambler.new c9aes (List.replicate 32 0)).scramble_ipv6
      (List.replicate 16 0)).map to_int =
      some (CryptoPAn.format_ip (c9pan.anonymize_bin
        (to_int (List.replicate 16 0)) 6) 6) :=
  (claim_C9 c9aes c9aes_ok (List.replicate 32 0) (by decide) c9pan
    (by rfl)).2 (List.replicate 16 0) (by decide) (by decide)

/-! ### Claim C8: reference vectors with AES-128 -/

/-- The AES S-box packed into one natural number: byte `b` of `sboxNat`
(at bit offset `8*b`) is `S(b)` of FIPS-197. -/
def sboxNat : Nat := 2869618975290639062594974519597816386035077209210385677284518162336985023502962151465775969507961862820568736543004676439868535775640188584098917533413284844376797297285941524888791401501466624530423689326528054213168201056672989590893583853414110162539122864583953358348775951166211353578440977400428507475679327181038682772945817200201960445064847785221508011893952350688324234443749897213621340677040612747745615276448919507935121141307752692835344166708617454322778699219895865633266409040561742768581056182730443599545881830075941537620590442514083341749674612746994879540562701631131184186066652929592955206755

def sbox (b : Nat) : Nat := (sboxNat >>> (8 * b)) &&& 255

def stByte (v i : Nat) : Nat := (v >>> (8 * (15 - i))) &&& 255

def stFrom (f : Nat → Nat) : Nat :=
  (List.range 16).foldl (fun acc i => acc * 256 + f i) 0

def subBytes (v : Nat) : Nat := stFrom (fun i => sbox (stByte v i))

def shiftRows (v : Nat) : Nat :=
  stFrom (fun i => stByte v (4 * ((i / 4 + i % 4) % 4) + i % 4))

def xtime (b : Nat) : Nat := if b < 128 then 2 * b else (2 * b) ^^^ 283

def mixOne (a0 a1 a2 a3 r : Nat) : Nat :=
  if r = 0 then xtime a0 ^^^ (xtime a1 ^^^ a1) ^^^ a2 ^^^ a3
  else if r = 1 then a0 ^^^ xtime a1 ^^^ (xtime a2 ^^^ a2) ^^^ a3
  else if r = 2 then a0 ^^^ a1 ^^^ xtime a2 ^^^ (xtime a3 ^^^ a3)
  else (xtime a0 ^^^ a0) ^^^ a1 ^^^ a2 ^^^ xtime a3

def mixColumns (v : Nat) : Nat :=
  stFrom (fun i => mixOne (stByte v (4 * (i / 4))) (stByte v (4 * (i / 4) + 1))
    (stByte v (4 * (i / 4) + 2)) (stByte v (4 * (i / 4) + 3)) (i % 4))

def rotword (w : Nat) : Nat := ((w <<< 8) % 2 ^ 32) ||| (w >>> 24)

def subword (w : Nat) : Nat :=
  (sbox ((w >>> 24) &&& 255) <<< 24) ||| (sbox ((w >>> 16) &&& 255) <<< 16) |||
    (sbox ((w >>> 8) &&& 255) <<< 8) ||| sbox (w &&& 255)

def rcon : List Nat := [1, 2, 4, 8, 16, 32, 64, 128, 27, 54]

def expandWords (key : Nat) : List Nat :=
  (List.range 40).foldl
    (fun ws i =>
      let prev := ws.getD 0 0
      let old := ws.getD 3 0
      let t := if i % 4 = 0 then
          (subword (rotword prev)) ^^^ ((rcon.getD ((i + 4) / 4 - 1) 0) <<< 24)
        else prev
      (old ^^^ t) :: ws)
    [(key >>> (32 * 0)) &&& (2 ^ 32 - 1), (key >>> (32 * 1)) &&& (2 ^ 32 - 1),
     (key >>> (32 * 2)) &&& (2 ^ 32 - 1), (key >>> (32 * 3)) &&& (2 ^ 32 - 1)]

def roundKey (L : List Nat) (r : Nat) : Nat :=
  ((L.getD (43 - 4 * r) 0) <<< 96) ||| ((L.getD (42 - 4 * r) 0) <<< 64) |||
    ((L.getD (41 - 4 * r) 0) <<< 32) ||| L.getD (40 - 4 * r) 0

/-- AES-128 single-block encryption (FIPS-197) on 128-bit naturals. -/
def aesEncrypt (key block : Nat) : Nat :=
  let L := expandWords key
  let s9 := (List.range 9).foldl
    (fun s r => mixColumns (shiftRows (subBytes s)) ^^^ roundKey L (r + 1))
    (block ^^^ roundKey L 0)
  shiftRows (subBytes s9) ^^^ roundKey L 10

/-- AES-128-ECB as a single-block byte function, the cipher realized by the
openssl `Crypter` of src/lib.rs. -/
def aes_128_ecb (key block : List Nat) : List Nat :=
  to_array (aesEncrypt (to_int key) (to_int block)) 16

/-- The fixed key of the repository's reference-vector tests. -/
def refKey : List Nat :=
  [21, 34, 23, 141, 51, 164, 207, 128, 19, 10, 91, 22, 73, 144, 125, 16,
   216, 152, 143, 131, 121, 121, 101, 39, 98, 87, 76, 45, 42, 132, 34, 2]

def refPan : CryptoPAn :=
  { cipher := aes_128_ecb (refKey.take 16),
    padding_int := 187842141033231243912252768777446319925 }

set_option maxHeartbeats 4000000 in
theorem c8_new : CryptoPAn.new aes_128_ecb refKey = Except.ok refPan := by rfl

set_option maxHeartbeats 4000000 in
theorem c8_v4a : CryptoPAn.format_ip (refPan.anonymize_bin 2148222084 4) 4 =
    2280830084 := by decide

set_option maxHeartbeats 4000000 in
theorem c8_v4b : CryptoPAn.format_ip (refPan.anonymize_bin 3223927083 4) 4 =
    4242464184 := by decide

set_option maxHeartbeats 8000000 in
theorem c8_v6a : CryptoPAn.format_ip (refPan.anonymize_bin 1 6) 6 =
    160836263100089710266685232990856151277 := by decide

set_option maxHeartbeats 8000000 in
theorem c8_v6b : CryptoPAn.format_ip (refPan.anonymize_bin
    42540766411282592856903984951653826561 6) 6 =
    90392751499734322728271078661674884126 := by decide

/-- C8: the reference vectors of the repository's test suite, under the
fixed 32-byte key and AES-128.  `CryptoPAn::new` on the key produces the
cipher and padding of `refPan` (whose padding literal is the AES encryption
of the key's second half), and `anonymize_bin` (through `format_ip`) maps
  128.11.68.132  (= 2148222084)  to 135.242.180.132 (= 2280830084),
  192.41.57.43   (= 3223927083)  to 252.222.221.184 (= 4242464184),
  ::1            (= 1)           to 78ff:f001:9fc0:20df:8380:b1f1:704:ed,
  2001:db8::1                    to 4401:2bc:603f:d91d:27f:ff8e:e6f1:dc1e,
the IPv6 results read as 128-bit integers. -/
theorem claim_C8 :
    (CryptoPAn.new aes_128_ecb refKey = Except.ok refPan) ∧
    CryptoPAn.format_ip (refPan.anonymize_bin 2148222084 4) 4 =
      2280830084 ∧
    CryptoPAn.format_ip (refPan.anonymize_bin 3223927083 4) 4 =
      4242464184 ∧
    CryptoPAn.format_ip (refPan.anonymize_bin 1 6) 6 =
      160836263100089710266685232990856151277 ∧
    CryptoPAn.format_ip (refPan.anonymize_bin
      42540766411282592856903984951653826561 6) 6 =
      90392751499734322728271078661674884126 :=
  ⟨c8_new, c8_v4a, c8_v4b, c8_v6a, c8_v6b⟩
